import Mathlib

/-!
Verification of the catalog query engine of `app.py` (a Flask image API).

The development shallowly embeds the Python source:
* Python string primitives used by the code (`str.lower`, `str.strip`,
  `str.split(",")`, `str.endswith`, `sorted`) are modelled as executable
  functions on `List Char` / `String` (code points; the repository only
  uses ASCII data, and Python compares strings by code point).
* The filesystem is an abstract read-only state `FS` exposing exactly the
  observations the code makes (`os.path.isdir`, `os.listdir`,
  `os.path.isfile`).
* The persisted `tags.json` store is a `TagsFile` state: absent,
  present-but-unreadable (`open` raises), present-but-invalid JSON
  (`json.load` raises), or a parsed JSON document `JValue`.
* Each Flask handler becomes a function returning `Except ApiErr payload`;
  `abort(400)` / the 404 return map to `ApiErr.badRequest` /
  `ApiErr.notFound`, and an uncaught Python exception maps to
  `ApiErr.serverError`.
-/

/-- One code point of Python's `str.lower` (ASCII range; the tag data and
filenames in this repository are ASCII). -/
def lowerChar (c : Char) : Char :=
  if c.isUpper then Char.ofNat (c.toNat + 32) else c

/-- Python `s.lower()`. -/
def pyLower (s : String) : String := ⟨s.data.map lowerChar⟩

/-- Python `s.strip()` (whitespace at both ends). -/
def pyStrip (s : String) : String :=
  ⟨((s.data.dropWhile Char.isWhitespace).reverse.dropWhile Char.isWhitespace).reverse⟩

/-- Splitting on a single separator character, as Python `s.split(sep)`:
`"".split(",") == [""]`, separators delimit possibly empty fields. -/
def splitCharAux (sep : Char) : List Char → List Char → List (List Char)
  | [], cur => [cur.reverse]
  | c :: rest, cur =>
    if c = sep then cur.reverse :: splitCharAux sep rest []
    else splitCharAux sep rest (c :: cur)

/-- Python `s.split(",")` (single-character separator). -/
def pySplit (sep : Char) (s : String) : List String :=
  (splitCharAux sep s.data []).map (fun cs => ⟨cs⟩)

/-- `sufMatch rsuf rs` holds when the reversed list `rsuf` heads `rs`. -/
def sufMatch : List Char → List Char → Bool
  | [], _ => true
  | _ :: _, [] => false
  | a :: as, b :: bs => a = b && sufMatch as bs

/-- Python `s.endswith(suffix)`. -/
def pyEndsWith (s suffix : String) : Bool :=
  sufMatch suffix.data.reverse s.data.reverse

/-- Python `s.startswith(c)` for a one-character argument. -/
def pyStartsWith (s : String) (c : Char) : Bool :=
  match s.data with
  | [] => false
  | d :: _ => d = c

/-- Python's `<=` on strings: lexicographic by code point. -/
def charListLe : List Char → List Char → Bool
  | [], _ => true
  | _ :: _, [] => false
  | a :: as, b :: bs => if a < b then true else if b < a then false else charListLe as bs

/-- `a <= b` for Python strings. -/
def pyLe (a b : String) : Bool := charListLe a.data b.data

/-- The ordering used by Python `sorted` on strings, as a `Prop`. -/
def pyStrLe (a b : String) : Prop := pyLe a b = true

instance : DecidableRel pyStrLe := fun a b => by unfold pyStrLe; infer_instance

/-- Python `sorted(xs)` for lists of strings.  `sorted` is a stable sort
for a total preorder; since string comparison is antisymmetric the sorted
permutation is unique, so any correct sort models it.  We use insertion
sort, which the kernel can evaluate. -/
def pySorted (xs : List String) : List String := List.insertionSort pyStrLe xs

/-- Werkzeug/Python `int(raw)` digit-run value. -/
def digitsVal (ds : List Char) : Int :=
  ds.foldl (fun acc c => 10 * acc + ((c.toNat : Int) - 48)) 0

/-- A run of decimal digits, or `none`. -/
def parseDigits (ds : List Char) : Option Int :=
  match ds with
  | [] => none
  | _ => if ds.all Char.isDigit then some (digitsVal ds) else none

/-- Python `int(s)` on a string: optional surrounding whitespace, optional
sign, then decimal digits; anything else raises `ValueError`, modelled as
`none`.  (Underscore digit grouping and non-ASCII digits are not used by
any caller and are not modelled.) -/
def parsePyInt (s : String) : Option Int :=
  match (pyStrip s).data with
  | '+' :: ds => parseDigits ds
  | '-' :: ds => (parseDigits ds).map (fun n => -n)
  | ds => parseDigits ds

/-- `request.args.get("limit", type=int)`: Werkzeug returns the default
(`None`) both when the parameter is absent and when the `int` conversion
raises `ValueError`. -/
def parseLimitArg (raw : Option String) : Option Int := raw.bind parsePyInt

/-- The guard `limit is not None and limit < 1` of all three handlers. -/
def limitBad (limit : Option Int) : Bool :=
  match limit with
  | none => false
  | some l => decide (l < 1)

/-- `IMAGE_EXTS` from `app.py`. -/
def IMAGE_EXTS : List String := [".jpg", ".jpeg", ".png", ".webp", ".gif"]

/-- `f.lower().endswith(IMAGE_EXTS)` (endswith on a tuple is an OR). -/
def hasImageExt (f : String) : Bool :=
  IMAGE_EXTS.any (fun e => pyEndsWith (pyLower f) e)

/-- The filesystem observations made by `app.py`, keyed the way the code
keys them: `isDirAt c` is `os.path.isdir(join(static_folder, c))`,
`listingAt c` is `os.listdir` of that folder, `isFileAt c f` is
`os.path.isfile(join(static_folder, c, f))`. -/
structure FS where
  rootIsDir : Bool
  rootListing : List String
  isDirAt : String → Bool
  listingAt : String → List String
  isFileAt : String → String → Bool

/-- `categories()` from `app.py`: subdirectories of the image root that do
not start with `"."`, sorted. -/
def categories (fs : FS) : List String :=
  pySorted
    (if fs.rootIsDir then
      fs.rootListing.filter (fun name => fs.isDirAt name && !(pyStartsWith name '.'))
    else [])

/-- `image_files_in(category)` from `app.py`: regular files in the
category folder whose lowercased name ends with a recognized image
extension, sorted. -/
def image_files_in (fs : FS) (category : String) : List String :=
  if fs.isDirAt category then
    pySorted ((fs.listingAt category).filter
      (fun f => fs.isFileAt category f && hasImageExt f))
  else []

/-- `parse_multi_param(values)` from `app.py`: split each raw value on
commas, strip each token, drop empty tokens, concatenate in order.  (The
`v is None` guard is unreachable for `request.args.getlist` values and has
no counterpart here.) -/
def parse_multi_param (values : List String) : List String :=
  values.flatMap (fun v => ((pySplit ',' v).map pyStrip).filter (fun p => p != ""))

/-- A JSON value as produced by `json.load`.  Numbers are modelled as
integers (the store format uses none; only their `str()` image matters). -/
inductive JValue where
  | null : JValue
  | bool (b : Bool) : JValue
  | num (n : Int) : JValue
  | str (s : String) : JValue
  | arr (xs : List JValue) : JValue
  | obj (fields : List (String × JValue)) : JValue

/-- Python `repr` of a JSON-loaded value (the rendering `str` delegates to
for containers). -/
def pyRepr : JValue → String
  | JValue.null => "None"
  | JValue.bool true => "True"
  | JValue.bool false => "False"
  | JValue.num n => toString n
  | JValue.str s => "\x27" ++ s ++ "\x27"
  | JValue.arr xs =>
    "[" ++ String.intercalate ", " (xs.attach.map (fun x => pyRepr x.1)) ++ "]"
  | JValue.obj fields =>
    "\x7b" ++
      String.intercalate ", "
        (fields.attach.map (fun kv => "\x27" ++ kv.1.1 ++ "\x27: " ++ pyRepr kv.1.2)) ++
      "\x7d"
decreasing_by
  · simp_wf
    have := List.sizeOf_lt_of_mem x.2
    omega
  · rcases kv with ⟨⟨k, v⟩, hmem⟩
    simp_wf
    have := List.sizeOf_lt_of_mem hmem
    simp at this
    omega

/-- Python `str(t)` of a JSON-loaded value. -/
def pyStr : JValue → String
  | JValue.str s => s
  | v => pyRepr v

/-- The per-annotation normalization of `load_tags`: a JSON list becomes
`[str(t) for t in tags]`, anything else becomes `[str(tags)]`. -/
def normTag : JValue → List String
  | JValue.arr xs => xs.map pyStr
  | v => [pyStr v]

/-- The normalization loop of `load_tags`: category entries whose value is
not a dict are popped; surviving per-filename values are normalized with
`normTag`.  Iteration order and surviving-entry order follow the dict's
insertion order, as in CPython. -/
def normalizeEntries : List (String × JValue) → List (String × List (String × List String))
  | [] => []
  | (cat, JValue.obj files) :: rest =>
    (cat, files.map (fun ft => (ft.1, normTag ft.2))) :: normalizeEntries rest
  | (_, _) :: rest => normalizeEntries rest

/-- The state of `tags.json` as observed by `load_tags`:
`absent` — `os.path.exists` is false; `unreadable` — the file exists but
`open()` raises; `invalidJson` — readable but `json.load` raises;
`content v` — `json.load` returns `v`. -/
inductive TagsFile where
  | absent : TagsFile
  | unreadable : TagsFile
  | invalidJson : TagsFile
  | content (v : JValue) : TagsFile

/-- The normalized in-memory tag mapping. -/
def TagIndex : Type := List (String × List (String × List String))

/-- `load_tags()` from `app.py`.  `open()` sits outside the `try` block,
so an unreadable file raises out of the function (`Except.error ()`); a
`json.load` failure, or a top-level non-dict (whose `.items()` raises
inside the `try`), is caught and yields `{}`. -/
def load_tags : TagsFile → Except Unit TagIndex
  | TagsFile.absent => Except.ok []
  | TagsFile.unreadable => Except.error ()
  | TagsFile.invalidJson => Except.ok []
  | TagsFile.content (JValue.obj entries) => Except.ok (normalizeEntries entries)
  | TagsFile.content _ => Except.ok []

/-- Python `dict` lookup on an insertion-ordered association list. -/
def alookup {β : Type} (k : String) : List (String × β) → Option β
  | [] => none
  | (k', v) :: rest => if k = k' then some v else alookup k rest

/-- `TAGS.get(cat, {}).get(fname, [])`. -/
def tagsFor (T : TagIndex) (cat fname : String) : List String :=
  match alookup cat T with
  | none => []
  | some files => (alookup fname files).getD []

/-- One result record, as assembled by all three handlers. -/
structure ImageRecord where
  url : String
  filename : String
  tags : List String
  category : String
  deriving DecidableEq

/-- The record literal built for an accepted image. -/
def mkRecord (base cat fname : String) (tags : List String) : ImageRecord :=
  { url := base ++ "/images/" ++ cat ++ "/" ++ fname
    filename := fname
    tags := tags
    category := cat }

/-- `base_url()` from `app.py`: the request host URL with trailing slashes
stripped (`rstrip("/")`). -/
def base_url (hostUrl : String) : String :=
  ⟨(hostUrl.data.reverse.dropWhile (fun c => c = '/')).reverse⟩

/-- `any(t in tags_l for t in tag_filter)` where `tags_l` lowercases the
stored tags and `tag_filter` is already lowercased. -/
def matchAny (tagFilter tags : List String) : Bool :=
  tagFilter.any (fun t => (tags.map pyLower).contains t)

/-- The per-image keep decision of `/images` and `/images/<category>`:
filter only when a tag filter is present, match-any otherwise keep. -/
def acceptTag (tagFilter tags : List String) : Bool :=
  tagFilter.isEmpty || matchAny tagFilter tags

/-- The structured failures the handlers can produce: `abort(400)`,
the 404 return, or an uncaught exception (HTTP 500). -/
inductive ApiErr where
  | badRequest (msg : String) : ApiErr
  | notFound (msg : String) : ApiErr
  | serverError : ApiErr
  deriving DecidableEq

/-- The per-file loop of `list_images_by_category`: skip non-matching
files, append accepted records, break once `len(items) >= limit`. -/
def byCategoryLoop (base cat : String) (T : TagIndex) (tagFilter : List String)
    (limit : Option Int) : List String → List ImageRecord → List ImageRecord
  | [], items => items
  | f :: rest, items =>
    let tags := tagsFor T cat f
    if acceptTag tagFilter tags then
      let items' := items ++ [mkRecord base cat f tags]
      match limit with
      | some l =>
        if l ≤ (items'.length : Int) then items'
        else byCategoryLoop base cat T tagFilter (some l) rest items'
      | none => byCategoryLoop base cat T tagFilter none rest items'
    else byCategoryLoop base cat T tagFilter limit rest items

/-- `GET /images/<category>` (`list_images_by_category` in `app.py`). -/
def list_images_by_category (fs : FS) (tf : TagsFile) (hostUrl category : String)
    (tagValues : List String) (limitRaw : Option String) :
    Except ApiErr (List ImageRecord) :=
  match load_tags tf with
  | Except.error _ => Except.error ApiErr.serverError
  | Except.ok T =>
    let files := image_files_in fs category
    if files.isEmpty then Except.error (ApiErr.notFound "Category not found or empty")
    else
      let tagFilter := (parse_multi_param tagValues).map pyLower
      let limit := parseLimitArg limitRaw
      if limitBad limit then Except.error (ApiErr.badRequest "limit must be >= 1")
      else Except.ok (byCategoryLoop (base_url hostUrl) category T tagFilter limit files [])

/-- The per-file loop of `list_all_images`: build the category bucket,
increment the global counter per accepted image when a limit is set, and
signal early finalization the moment the counter reaches the limit. -/
def allImagesInner (base cat : String) (T : TagIndex) (tagFilter : List String)
    (limit : Option Int) :
    List String → List ImageRecord → Int → List ImageRecord × Int × Bool
  | [], bucket, total => (bucket, total, false)
  | f :: rest, bucket, total =>
    let tags := tagsFor T cat f
    if acceptTag tagFilter tags then
      let bucket' := bucket ++ [mkRecord base cat f tags]
      match limit with
      | some l =>
        let total' := total + 1
        if l ≤ total' then (bucket', total', true)
        else allImagesInner base cat T tagFilter (some l) rest bucket' total'
      | none => allImagesInner base cat T tagFilter none rest bucket' total
    else allImagesInner base cat T tagFilter limit rest bucket total

/-- Python `data[cat] = bucket` on an insertion-ordered dict: update in
place when the key exists, append otherwise. -/
def dictInsert {β : Type} (d : List (String × β)) (k : String) (v : β) :
    List (String × β) :=
  match d with
  | [] => [(k, v)]
  | (k', v') :: rest =>
    if k' = k then (k', v) :: rest else (k', v') :: dictInsert rest k v

/-- The per-category loop of `list_all_images`: skip categories with no
files, store nonempty buckets, and finalize immediately (keeping the
current partial bucket) when the inner loop signals the limit. -/
def allImagesLoop (fs : FS) (base : String) (T : TagIndex) (tagFilter : List String)
    (limit : Option Int) :
    List String → List (String × List ImageRecord) → Int →
      List (String × List ImageRecord)
  | [], data, _ => data
  | cat :: rest, data, total =>
    let files := image_files_in fs cat
    if files.isEmpty then allImagesLoop fs base T tagFilter limit rest data total
    else
      match allImagesInner base cat T tagFilter limit files [] total with
      | (bucket, _, true) => if bucket.isEmpty then data else dictInsert data cat bucket
      | (bucket, total', false) =>
        allImagesLoop fs base T tagFilter limit rest
          (if bucket.isEmpty then data else dictInsert data cat bucket) total'

/-- `GET /images` (`list_all_images` in `app.py`). -/
def list_all_images (fs : FS) (tf : TagsFile) (hostUrl : String)
    (catValues tagValues : List String) (limitRaw : Option String) :
    Except ApiErr (List (String × List ImageRecord)) :=
  match load_tags tf with
  | Except.error _ => Except.error ApiErr.serverError
  | Except.ok T =>
    let cat_filter := parse_multi_param catValues
    let tagFilter := (parse_multi_param tagValues).map pyLower
    let limit := parseLimitArg limitRaw
    if limitBad limit then Except.error (ApiErr.badRequest "limit must be >= 1")
    else
      let chosen := if cat_filter.isEmpty then categories fs else cat_filter
      Except.ok (allImagesLoop fs (base_url hostUrl) T tagFilter limit chosen [] 0)

/-- The per-file loop of `search_by_tag` for one category: append matching
records and return immediately once `len(results) >= limit`. -/
def searchInnerLoop (base cat : String) (T : TagIndex) (tagFilter : List String)
    (limit : Option Int) : List String → List ImageRecord → List ImageRecord × Bool
  | [], results => (results, false)
  | f :: rest, results =>
    let tags := tagsFor T cat f
    if matchAny tagFilter tags then
      let results' := results ++ [mkRecord base cat f tags]
      match limit with
      | some l =>
        if l ≤ (results'.length : Int) then (results', true)
        else searchInnerLoop base cat T tagFilter (some l) rest results'
      | none => searchInnerLoop base cat T tagFilter none rest results'
    else searchInnerLoop base cat T tagFilter limit rest results

/-- The per-category loop of `search_by_tag`. -/
def searchLoop (fs : FS) (base : String) (T : TagIndex) (tagFilter : List String)
    (limit : Option Int) : List String → List ImageRecord → List ImageRecord
  | [], results => results
  | cat :: rest, results =>
    match searchInnerLoop base cat T tagFilter limit (image_files_in fs cat) results with
    | (results', true) => results'
    | (results', false) => searchLoop fs base T tagFilter limit rest results'

/-- `GET /images-search` (`search_by_tag` in `app.py`). -/
def search_by_tag (fs : FS) (tf : TagsFile) (hostUrl : String)
    (tagValues : List String) (limitRaw : Option String) :
    Except ApiErr (List ImageRecord) :=
  match load_tags tf with
  | Except.error _ => Except.error ApiErr.serverError
  | Except.ok T =>
    let tagFilter := (parse_multi_param tagValues).map pyLower
    if tagFilter.isEmpty then
      Except.error (ApiErr.badRequest "tag query parameter is required")
    else
      let limit := parseLimitArg limitRaw
      if limitBad limit then Except.error (ApiErr.badRequest "limit must be >= 1")
      else Except.ok (searchLoop fs (base_url hostUrl) T tagFilter limit (categories fs) [])

/-! ### Derived descriptions used in theorem statements

The functions below are not part of the embedding of `app.py`; they are
closed-form descriptions of what the loops above compute, proved correct
in the theorem section and used to state the claims. -/

/-- The lowercased tag filter built by every handler. -/
def lowerTags (tagValues : List String) : List String :=
  (parse_multi_param tagValues).map pyLower

/-- The category list the `/images` handler iterates: the explicit filter
when nonempty, else the discovered categories. -/
def chosenCats (fs : FS) (catValues : List String) : List String :=
  if (parse_multi_param catValues).isEmpty then categories fs
  else parse_multi_param catValues

/-- The records a run of the `/images` or `/images/<category>` per-file
loop still accepts from a remaining file list, with no limit. -/
def pendingRecords (base cat : String) (T : TagIndex) (tagFilter : List String)
    (files : List String) : List ImageRecord :=
  (files.filter (fun f => acceptTag tagFilter (tagsFor T cat f))).map
    (fun f => mkRecord base cat f (tagsFor T cat f))

/-- The records a run of the `/images-search` per-file loop (whose
per-image test is `matchAny`) still accepts from a remaining file list. -/
def searchPending (base cat : String) (T : TagIndex) (tagFilter : List String)
    (files : List String) : List ImageRecord :=
  (files.filter (fun f => matchAny tagFilter (tagsFor T cat f))).map
    (fun f => mkRecord base cat f (tagsFor T cat f))

/-- The full (un-limited) bucket of accepted records for one category in
the `/images` and `/images/<category>` shapes. -/
def bucketFor (fs : FS) (T : TagIndex) (base : String) (tagFilter : List String)
    (cat : String) : List ImageRecord :=
  pendingRecords base cat T tagFilter (image_files_in fs cat)

/-- The full bucket of matching records for one category in the
`/images-search` shape. -/
def searchBucketFor (fs : FS) (T : TagIndex) (base : String) (tagFilter : List String)
    (cat : String) : List ImageRecord :=
  searchPending base cat T tagFilter (image_files_in fs cat)

/-- The un-limited `/images` response: one bucket per category with at
least one accepted image, in iteration order. -/
def allFull (fs : FS) (T : TagIndex) (base : String) (tagFilter : List String)
    (cats : List String) : List (String × List ImageRecord) :=
  cats.filterMap (fun cat =>
    let A := bucketFor fs T base tagFilter cat
    if A.isEmpty then none else some (cat, A))

/-- The `/images` response under a global limit with `need` accepted
records still allowed (`need ≥ 1`): full buckets until the budget runs
out, then a final truncated bucket. -/
def truncAll (fs : FS) (T : TagIndex) (base : String) (tagFilter : List String)
    (need : Int) : List String → List (String × List ImageRecord)
  | [] => []
  | cat :: rest =>
    let A := bucketFor fs T base tagFilter cat
    if A.isEmpty then truncAll fs T base tagFilter need rest
    else if (A.length : Int) < need then
      (cat, A) :: truncAll fs T base tagFilter (need - A.length) rest
    else [(cat, A.take need.toNat)]

/-- Total number of records across all buckets of an `/images` response. -/
def totalRecords (data : List (String × List ImageRecord)) : Nat :=
  (data.map (fun cb => cb.2.length)).sum

/-- Total number of images accepted by the tag filter across `cats`. -/
def matchTotal (fs : FS) (T : TagIndex) (tagFilter : List String)
    (cats : List String) : Nat :=
  (cats.map (fun c =>
    ((image_files_in fs c).filter (fun f => acceptTag tagFilter (tagsFor T c f))).length)).sum

/-- Applying an optional limit to a flat result sequence. -/
def limTake (limit : Option Int) (xs : List ImageRecord) : List ImageRecord :=
  match limit with
  | none => xs
  | some l => xs.take l.toNat

/-- `TruncOf trunc full`: `trunc` is `full` cut off at a global limit —
either an initial segment of whole buckets, or whole buckets followed by
one nonempty truncated bucket of the next category; categories past the
cut are absent. -/
def TruncOf (trunc full : List (String × List ImageRecord)) : Prop :=
  (∃ post, full = trunc ++ post) ∨
  (∃ pre c A b rest2 m, full = pre ++ (c, A) :: rest2 ∧ trunc = pre ++ [(c, b)] ∧
    b ≠ [] ∧ b = A.take m)

/-- The output order of `/images-search`: grouped by ascending category,
ascending filename within a category. -/
def recOrd (r1 r2 : ImageRecord) : Prop :=
  pyStrLe r1.category r2.category ∧
    (r1.category = r2.category → pyStrLe r1.filename r2.filename)

/-! ### Concrete fixtures for witnesses and counterexamples -/

/-- A small filesystem: image root with folders `components` (files
`b.jpg`, `a.png`, `notes.txt`) and `precedents` (file `c.webp`), plus a
hidden `.git` folder. -/
def fsA : FS where
  rootIsDir := true
  rootListing := ["precedents", "components", ".git"]
  isDirAt := fun c => c = "components" || c = "precedents" || c = ".git"
  listingAt := fun c =>
    if c = "components" then ["b.jpg", "a.png", "notes.txt"]
    else if c = "precedents" then ["c.webp"] else []
  isFileAt := fun _ _ => true

/-- The top-level entries of a `tags.json` for `fsA`: one list-valued
annotation, one scalar annotation, and one non-mapping category entry. -/
def entriesA : List (String × JValue) :=
  [("components", JValue.obj
      [("a.png", JValue.arr [JValue.str "Hypar"]), ("b.jpg", JValue.str "joint")]),
   ("bogus", JValue.str "oops")]

/-- The `tags.json` state holding `entriesA`. -/
def tfA : TagsFile := TagsFile.content (JValue.obj entriesA)

/-- The `TagIndex` that `load_tags` produces from `tfA`. -/
def TA : TagIndex := [("components", [("a.png", ["Hypar"]), ("b.jpg", ["joint"])])]

/-- A filesystem with two categories `a` (file `x.jpg`) and `b`
(file `y.jpg`). -/
def fsB : FS where
  rootIsDir := true
  rootListing := ["b", "a"]
  isDirAt := fun c => c = "a" || c = "b"
  listingAt := fun c =>
    if c = "a" then ["x.jpg"] else if c = "b" then ["y.jpg"] else []
  isFileAt := fun _ _ => true

/-! ## Order lemmas for the code-point string ordering -/

theorem charListLe_refl : ∀ as : List Char, charListLe as as = true
  | [] => rfl
  | a :: as => by simp [charListLe, lt_irrefl, charListLe_refl as]

theorem charListLe_total : ∀ as bs : List Char,
    charListLe as bs = true ∨ charListLe bs as = true
  | [], _ => Or.inl rfl
  | _ :: _, [] => Or.inr rfl
  | a :: as, b :: bs => by
    rcases lt_trichotomy a b with h | h | h
    · left; simp [charListLe, h]
    · subst h
      rcases charListLe_total as bs with ih | ih
      · left; simp [charListLe, lt_irrefl, ih]
      · right; simp [charListLe, lt_irrefl, ih]
    · right; simp [charListLe, h]

theorem charListLe_trans : ∀ as bs cs : List Char,
    charListLe as bs = true → charListLe bs cs = true → charListLe as cs = true
  | [], _, _ => by intro _ _; rfl
  | _ :: _, [], _ => by intro h _; simp [charListLe] at h
  | _ :: _, _ :: _, [] => by intro _ h; simp [charListLe] at h
  | a :: as, b :: bs, c :: cs => by
    intro h1 h2
    rcases lt_trichotomy a b with hab | hab | hab
    · rcases lt_trichotomy b c with hbc | hbc | hbc
      · simp [charListLe, lt_trans hab hbc]
      · subst hbc; simp [charListLe, hab]
      · simp [charListLe, lt_asymm hbc, hbc] at h2
    · subst hab
      rcases lt_trichotomy a c with hbc | hbc | hbc
      · simp [charListLe, hbc]
      · subst hbc
        simp only [charListLe, lt_irrefl, if_false] at h1 h2 ⊢
        exact charListLe_trans as bs cs h1 h2
      · simp [charListLe, lt_asymm hbc, hbc] at h2
    · simp [charListLe, lt_asymm hab, hab] at h1

theorem pyStrLe_refl (a : String) : pyStrLe a a := charListLe_refl a.data

theorem pySorted_sorted (xs : List String) : List.Pairwise pyStrLe (pySorted xs) := by
  haveI : IsTotal String pyStrLe := ⟨fun a b => charListLe_total a.data b.data⟩
  haveI : IsTrans String pyStrLe := ⟨fun a b c => charListLe_trans a.data b.data c.data⟩
  exact List.sorted_insertionSort pyStrLe xs

theorem pySorted_perm (xs : List String) : (pySorted xs).Perm xs :=
  List.perm_insertionSort _ _

theorem mem_pySorted {x : String} {xs : List String} : x ∈ pySorted xs ↔ x ∈ xs :=
  (pySorted_perm xs).mem_iff

theorem pySorted_nodup {xs : List String} (h : xs.Nodup) : (pySorted xs).Nodup :=
  (pySorted_perm xs).nodup_iff.mpr h

/-! ## Catalog lemmas -/

theorem categories_pairwise (fs : FS) : List.Pairwise pyStrLe (categories fs) :=
  pySorted_sorted _

theorem categories_nodup (fs : FS) (h : fs.rootListing.Nodup) :
    (categories fs).Nodup := by
  unfold categories
  apply pySorted_nodup
  split
  · exact h.filter _
  · exact List.nodup_nil

theorem image_files_in_pairwise (fs : FS) (c : String) :
    List.Pairwise pyStrLe (image_files_in fs c) := by
  unfold image_files_in
  split
  · exact pySorted_sorted _
  · exact List.Pairwise.nil

theorem mem_image_files_in {fs : FS} {c f : String} :
    f ∈ image_files_in fs c ↔
      fs.isDirAt c = true ∧ f ∈ fs.listingAt c ∧ fs.isFileAt c f = true ∧
        hasImageExt f = true := by
  unfold image_files_in
  split
  · rename_i hdir
    rw [mem_pySorted, List.mem_filter]
    simp [hdir, Bool.and_eq_true, and_assoc]
  · rename_i hdir
    simp only [List.not_mem_nil, false_iff]
    intro h
    exact hdir h.1

theorem acceptTag_of_ne {tagFilter tags : List String} (h : tagFilter ≠ []) :
    acceptTag tagFilter tags = matchAny tagFilter tags := by
  unfold acceptTag
  simp [List.isEmpty_iff, h]

/-! ## Characterization of the per-file loops -/

theorem pendingRecords_nil (base cat : String) (T : TagIndex) (tagFilter : List String) :
    pendingRecords base cat T tagFilter [] = [] := rfl

theorem byCategoryLoop_none (base cat : String) (T : TagIndex) (tagFilter : List String)
    (files : List String) : ∀ items,
    byCategoryLoop base cat T tagFilter none files items =
      items ++ pendingRecords base cat T tagFilter files := by
  induction files with
  | nil => intro items; simp [byCategoryLoop, pendingRecords]
  | cons f rest ih =>
    intro items
    by_cases hacc : acceptTag tagFilter (tagsFor T cat f) = true
    · simp [byCategoryLoop, hacc, ih, pendingRecords]
    · simp [byCategoryLoop, hacc, ih, pendingRecords]

theorem byCategoryLoop_some (base cat : String) (T : TagIndex) (tagFilter : List String)
    (l : Int) (files : List String) : ∀ items, ((items.length : Int) < l) →
    byCategoryLoop base cat T tagFilter (some l) files items =
      items ++ (pendingRecords base cat T tagFilter files).take (l.toNat - items.length) := by
  induction files with
  | nil => intro items _; simp [byCategoryLoop, pendingRecords]
  | cons f rest ih =>
    intro items h
    by_cases hacc : acceptTag tagFilter (tagsFor T cat f) = true
    · by_cases hstop : l ≤ (((items ++ [mkRecord base cat f (tagsFor T cat f)]).length : Int))
      · have hl : l.toNat - items.length = 1 := by
          simp only [List.length_append, List.length_cons, List.length_nil] at hstop
          omega
        simp only [byCategoryLoop, hacc, if_true]
        rw [if_pos hstop]
        simp [pendingRecords, List.filter_cons, hacc, hl]
      · have hlt : ((items ++ [mkRecord base cat f (tagsFor T cat f)]).length : Int) < l := by
          omega
        have heq : l.toNat - items.length = (l.toNat - (items.length + 1)) + 1 := by
          simp only [List.length_append, List.length_cons, List.length_nil] at hstop
          omega
        simp only [byCategoryLoop, hacc, if_true, if_neg hstop]
        rw [ih _ hlt]
        simp only [pendingRecords, List.filter_cons, hacc, List.map_cons, heq,
          List.take_succ_cons, List.length_append, List.length_cons, List.length_nil]
        simp [pendingRecords]
    · simp only [byCategoryLoop, hacc, if_false, Bool.false_eq_true]
      rw [ih _ h]
      simp [pendingRecords, List.filter_cons, hacc]

theorem searchInnerLoop_none (base cat : String) (T : TagIndex) (tagFilter : List String)
    (files : List String) : ∀ results,
    searchInnerLoop base cat T tagFilter none files results =
      (results ++ searchPending base cat T tagFilter files, false) := by
  induction files with
  | nil => intro results; simp [searchInnerLoop, searchPending]
  | cons f rest ih =>
    intro results
    by_cases hacc : matchAny tagFilter (tagsFor T cat f) = true
    · simp [searchInnerLoop, hacc, ih, searchPending]
    · simp [searchInnerLoop, hacc, ih, searchPending]

theorem searchInnerLoop_some (base cat : String) (T : TagIndex) (tagFilter : List String)
    (l : Int) (files : List String) : ∀ results, ((results.length : Int) < l) →
    searchInnerLoop base cat T tagFilter (some l) files results =
      if ((results.length + (searchPending base cat T tagFilter files).length : Int) < l)
      then (results ++ searchPending base cat T tagFilter files, false)
      else (results ++ (searchPending base cat T tagFilter files).take (l.toNat - results.length),
        true) := by
  induction files with
  | nil =>
    intro results h
    simp only [searchInnerLoop, searchPending, List.filter_nil, List.map_nil,
      List.length_nil, List.append_nil]
    rw [if_pos (by omega)]
  | cons f rest ih =>
    intro results h
    by_cases hacc : matchAny tagFilter (tagsFor T cat f) = true
    · have hpend : searchPending base cat T tagFilter (f :: rest) =
          mkRecord base cat f (tagsFor T cat f) :: searchPending base cat T tagFilter rest := by
        simp [searchPending, List.filter_cons, hacc]
      by_cases hstop : l ≤ (((results ++ [mkRecord base cat f (tagsFor T cat f)]).length : Int))
      · have h2 : l.toNat - results.length = 1 := by
          simp only [List.length_append, List.length_cons, List.length_nil] at hstop
          omega
        simp only [searchInnerLoop, hacc, if_true]
        rw [if_pos hstop, hpend, if_neg (by
          simp only [List.length_cons]
          simp only [List.length_append, List.length_cons, List.length_nil] at hstop
          push_cast
          omega)]
        rw [h2, List.take_succ_cons, List.take_zero]
      · have hlt : ((results ++ [mkRecord base cat f (tagsFor T cat f)]).length : Int) < l := by
          omega
        simp only [searchInnerLoop, hacc, if_true]
        rw [if_neg hstop, ih _ hlt, hpend]
        simp only [List.length_append, List.length_cons, List.length_nil] at hstop ⊢
        by_cases hsm : ((results.length + (searchPending base cat T tagFilter rest).length + 1 : Int) < l)
        · rw [if_pos (by push_cast; omega),
            if_pos (by push_cast; omega)]
          simp
        · rw [if_neg (by push_cast; omega),
            if_neg (by push_cast; omega)]
          have heq : l.toNat - results.length = (l.toNat - (results.length + 1)) + 1 := by
            push_cast at hstop
            omega
          rw [heq, List.take_succ_cons]
          simp
    · have hpend : searchPending base cat T tagFilter (f :: rest) =
          searchPending base cat T tagFilter rest := by
        simp [searchPending, List.filter_cons, hacc]
      simp only [searchInnerLoop, hacc, if_false, Bool.false_eq_true, hpend]
      exact ih _ h

/-! ## Characterization of the search per-category loop -/

theorem searchLoop_none (fs : FS) (base : String) (T : TagIndex)
    (tagFilter : List String) (cats : List String) : ∀ results,
    searchLoop fs base T tagFilter none cats results =
      results ++ (cats.map (searchBucketFor fs T base tagFilter)).flatten := by
  induction cats with
  | nil => intro results; simp [searchLoop]
  | cons c rest ih =>
    intro results
    simp only [searchLoop]
    rw [searchInnerLoop_none]
    simp [ih, searchBucketFor]

theorem searchLoop_some (fs : FS) (base : String) (T : TagIndex)
    (tagFilter : List String) (l : Int) (cats : List String) : ∀ results,
    ((results.length : Int) < l) →
    searchLoop fs base T tagFilter (some l) cats results =
      results ++
        ((cats.map (searchBucketFor fs T base tagFilter)).flatten).take
          (l.toNat - results.length) := by
  induction cats with
  | nil => intro results _; simp [searchLoop]
  | cons c rest ih =>
    intro results h
    simp only [searchLoop]
    rw [searchInnerLoop_some _ _ _ _ _ _ _ h]
    by_cases hsm :
        ((results.length + (searchPending base c T tagFilter (image_files_in fs c)).length : Int) < l)
    · rw [if_pos hsm]
      dsimp only
      rw [ih _ (by simp only [List.length_append]; push_cast; omega)]
      simp only [List.map_cons, List.flatten_cons, searchBucketFor, List.append_assoc,
        List.length_append]
      rw [List.take_append_eq_append_take]
      obtain ⟨n, rfl⟩ : ∃ n : Nat, l = (n : Int) :=
        ⟨l.toNat, (Int.toNat_of_nonneg (by omega)).symm⟩
      simp only [Int.toNat_natCast] at *
      have hbig : (searchPending base c T tagFilter (image_files_in fs c)).length ≤
          n - results.length := by omega
      rw [List.take_of_length_le hbig, Nat.sub_sub]
    · rw [if_neg hsm]
      dsimp only
      simp only [List.map_cons, List.flatten_cons, searchBucketFor]
      rw [List.take_append_eq_append_take]
      obtain ⟨n, rfl⟩ : ∃ n : Nat, l = (n : Int) :=
        ⟨l.toNat, (Int.toNat_of_nonneg (by omega)).symm⟩
      simp only [Int.toNat_natCast] at *
      have hsmall : n - results.length ≤
          (searchPending base c T tagFilter (image_files_in fs c)).length := by omega
      rw [Nat.sub_eq_zero_of_le hsmall, List.take_zero, List.append_nil]

/-! ## Characterization of the `/images` loops -/

theorem allImagesInner_none (base cat : String) (T : TagIndex) (tagFilter : List String)
    (files : List String) : ∀ bucket total,
    allImagesInner base cat T tagFilter none files bucket total =
      (bucket ++ pendingRecords base cat T tagFilter files, total, false) := by
  induction files with
  | nil => intro bucket total; simp [allImagesInner, pendingRecords]
  | cons f rest ih =>
    intro bucket total
    by_cases hacc : acceptTag tagFilter (tagsFor T cat f) = true
    · simp [allImagesInner, hacc, ih, pendingRecords]
    · simp [allImagesInner, hacc, ih, pendingRecords]

theorem allImagesInner_some (base cat : String) (T : TagIndex) (tagFilter : List String)
    (l : Int) (files : List String) : ∀ bucket (total : Int), total < l →
    allImagesInner base cat T tagFilter (some l) files bucket total =
      if ((total + (pendingRecords base cat T tagFilter files).length : Int) < l)
      then (bucket ++ pendingRecords base cat T tagFilter files,
        total + (pendingRecords base cat T tagFilter files).length, false)
      else (bucket ++ (pendingRecords base cat T tagFilter files).take ((l - total).toNat),
        l, true) := by
  induction files with
  | nil =>
    intro bucket total h
    simp only [allImagesInner, pendingRecords, List.filter_nil, List.map_nil,
      List.length_nil, List.append_nil]
    rw [if_pos (by omega)]
    simp
  | cons f rest ih =>
    intro bucket total h
    by_cases hacc : acceptTag tagFilter (tagsFor T cat f) = true
    · have hpend : pendingRecords base cat T tagFilter (f :: rest) =
          mkRecord base cat f (tagsFor T cat f) :: pendingRecords base cat T tagFilter rest := by
        simp [pendingRecords, List.filter_cons, hacc]
      by_cases hstop : l ≤ total + 1
      · have hl : l = total + 1 := by omega
        simp only [allImagesInner, hacc, if_true]
        rw [if_pos hstop, hpend, if_neg (by simp only [List.length_cons]; push_cast; omega)]
        have h1 : (l - total).toNat = 1 := by omega
        rw [h1, List.take_succ_cons, List.take_zero, hl]
      · simp only [allImagesInner, hacc, if_true]
        rw [if_neg hstop, ih _ _ (by omega), hpend]
        simp only [List.length_cons]
        by_cases hsm : ((total + (pendingRecords base cat T tagFilter rest).length + 1 : Int) < l)
        · rw [if_pos (by omega), if_pos (by push_cast; omega)]
          simp only [List.append_assoc, List.singleton_append, Prod.mk.injEq, and_true,
            true_and]
          push_cast
          omega
        · rw [if_neg (by omega), if_neg (by push_cast; omega)]
          have heq : (l - total).toNat = (l - (total + 1)).toNat + 1 := by omega
          rw [heq, List.take_succ_cons]
          simp
    · have hpend : pendingRecords base cat T tagFilter (f :: rest) =
          pendingRecords base cat T tagFilter rest := by
        simp [pendingRecords, List.filter_cons, hacc]
      simp only [allImagesInner, hacc, if_false, Bool.false_eq_true, hpend]
      exact ih _ _ h

theorem dictInsert_of_not_mem {β : Type} (d : List (String × β)) (k : String) (v : β)
    (h : k ∉ d.map Prod.fst) : dictInsert d k v = d ++ [(k, v)] := by
  induction d with
  | nil => rfl
  | cons kv rest ih =>
    simp only [List.map_cons, List.mem_cons, not_or] at h
    simp only [dictInsert]
    rw [if_neg (fun he => h.1 he.symm), ih h.2]
    rfl

theorem mem_dictInsert {β : Type} {d : List (String × β)} {k : String} {v : β}
    {x : String × β} (hx : x ∈ dictInsert d k v) : x ∈ d ∨ x = (k, v) := by
  induction d with
  | nil => simpa [dictInsert] using hx
  | cons kv rest ih =>
    simp only [dictInsert] at hx
    by_cases he : kv.1 = k
    · rw [if_pos he] at hx
      rcases List.mem_cons.mp hx with h1 | h1
      · right; rw [h1, he]
      · left; exact List.mem_cons_of_mem _ h1
    · rw [if_neg he] at hx
      rcases List.mem_cons.mp hx with h1 | h1
      · left; rw [h1]; exact List.mem_cons_self _ _
      · rcases ih h1 with h2 | h2
        · left; exact List.mem_cons_of_mem _ h2
        · right; exact h2

theorem bucketFor_of_no_files {fs : FS} {cat : String} (T : TagIndex)
    (base : String) (tagFilter : List String) (h : image_files_in fs cat = []) :
    bucketFor fs T base tagFilter cat = [] := by
  simp [bucketFor, h, pendingRecords]

theorem allImagesLoop_none (fs : FS) (base : String) (T : TagIndex)
    (tagFilter : List String) (cats : List String) : ∀ data total,
    (∀ c ∈ cats, c ∉ data.map Prod.fst) → cats.Nodup →
    allImagesLoop fs base T tagFilter none cats data total =
      data ++ allFull fs T base tagFilter cats := by
  induction cats with
  | nil => intro data total _ _; simp [allImagesLoop, allFull]
  | cons cat rest ih =>
    intro data total hkeys hnd
    simp only [allImagesLoop]
    by_cases hfe : (image_files_in fs cat).isEmpty = true
    · rw [if_pos hfe]
      have hA : bucketFor fs T base tagFilter cat = [] :=
        bucketFor_of_no_files T base tagFilter (List.isEmpty_iff.mp hfe)
      rw [ih data total (fun c hc => hkeys c (List.mem_cons_of_mem _ hc)) hnd.of_cons]
      simp [allFull, List.filterMap_cons, hA]
    · rw [if_neg hfe, allImagesInner_none]
      simp only [List.nil_append]
      rw [show pendingRecords base cat T tagFilter (image_files_in fs cat) =
        bucketFor fs T base tagFilter cat from rfl]
      by_cases hbe : (bucketFor fs T base tagFilter cat).isEmpty = true
      · dsimp only
        rw [if_pos hbe]
        rw [ih data total (fun c hc => hkeys c (List.mem_cons_of_mem _ hc)) hnd.of_cons]
        have hAe : bucketFor fs T base tagFilter cat = [] := List.isEmpty_iff.mp hbe
        simp [allFull, List.filterMap_cons, hAe]
      · dsimp only
        rw [if_neg hbe]
        rw [dictInsert_of_not_mem _ _ _ (hkeys cat (List.mem_cons_self _ _))]
        have hkeys' : ∀ c ∈ rest,
            c ∉ (data ++ [(cat, bucketFor fs T base tagFilter cat)]).map Prod.fst := by
          intro c hc
          simp only [List.map_append, List.map_cons, List.map_nil, List.mem_append,
            List.mem_singleton, not_or]
          exact ⟨hkeys c (List.mem_cons_of_mem _ hc),
            fun he => (List.nodup_cons.mp hnd).1 (he ▸ hc)⟩
        rw [ih _ total hkeys' hnd.of_cons]
        have hful : allFull fs T base tagFilter (cat :: rest) =
            (cat, bucketFor fs T base tagFilter cat) :: allFull fs T base tagFilter rest := by
          simp only [allFull, List.filterMap_cons]
          rw [if_neg (by simp [hbe])]
        rw [hful]
        simp

theorem allImagesLoop_some (fs : FS) (base : String) (T : TagIndex)
    (tagFilter : List String) (l : Int) (cats : List String) : ∀ data (total : Int),
    0 ≤ total → total < l →
    (∀ c ∈ cats, c ∉ data.map Prod.fst) → cats.Nodup →
    allImagesLoop fs base T tagFilter (some l) cats data total =
      data ++ truncAll fs T base tagFilter (l - total) cats := by
  induction cats with
  | nil => intro data total _ _ _ _; simp [allImagesLoop, truncAll]
  | cons cat rest ih =>
    intro data total h0 h hkeys hnd
    simp only [allImagesLoop]
    by_cases hfe : (image_files_in fs cat).isEmpty = true
    · rw [if_pos hfe]
      have hA : bucketFor fs T base tagFilter cat = [] :=
        bucketFor_of_no_files T base tagFilter (List.isEmpty_iff.mp hfe)
      rw [ih data total h0 h (fun c hc => hkeys c (List.mem_cons_of_mem _ hc)) hnd.of_cons]
      simp [truncAll, hA]
    · rw [if_neg hfe, allImagesInner_some _ _ _ _ _ _ _ _ h]
      simp only [List.nil_append]
      rw [show pendingRecords base cat T tagFilter (image_files_in fs cat) =
        bucketFor fs T base tagFilter cat from rfl]
      by_cases hsm : ((total + (bucketFor fs T base tagFilter cat).length : Int) < l)
      · rw [if_pos hsm]
        dsimp only
        by_cases hbe : (bucketFor fs T base tagFilter cat).isEmpty = true
        · have hAe : bucketFor fs T base tagFilter cat = [] := List.isEmpty_iff.mp hbe
          rw [if_pos hbe, hAe]
          simp only [List.length_nil, Nat.cast_zero, add_zero]
          rw [ih data total h0 h (fun c hc => hkeys c (List.mem_cons_of_mem _ hc)) hnd.of_cons]
          simp [truncAll, hAe]
        · rw [if_neg hbe]
          rw [dictInsert_of_not_mem _ _ _ (hkeys cat (List.mem_cons_self _ _))]
          have hkeys' : ∀ c ∈ rest,
              c ∉ (data ++ [(cat, bucketFor fs T base tagFilter cat)]).map Prod.fst := by
            intro c hc
            simp only [List.map_append, List.map_cons, List.map_nil, List.mem_append,
              List.mem_singleton, not_or]
            exact ⟨hkeys c (List.mem_cons_of_mem _ hc),
              fun he => (List.nodup_cons.mp hnd).1 (he ▸ hc)⟩
          rw [ih _ _ (by positivity) hsm hkeys' hnd.of_cons]
          have htr : truncAll fs T base tagFilter (l - total) (cat :: rest) =
              (cat, bucketFor fs T base tagFilter cat) ::
                truncAll fs T base tagFilter
                  (l - total - (bucketFor fs T base tagFilter cat).length) rest := by
            simp only [truncAll]
            rw [if_neg (by simp [hbe]), if_pos (by omega)]
          rw [htr]
          have harg : l - (total + ((bucketFor fs T base tagFilter cat).length : Int)) =
              l - total - (bucketFor fs T base tagFilter cat).length := by ring
          rw [harg]
          simp
      · rw [if_neg hsm]
        dsimp only
        have hAne : bucketFor fs T base tagFilter cat ≠ [] := by
          intro hAe
          rw [hAe] at hsm
          simp at hsm
          omega
        have hbne : ((bucketFor fs T base tagFilter cat).take ((l - total).toNat)).isEmpty
            = false := by
          cases hA : bucketFor fs T base tagFilter cat with
          | nil => exact absurd hA hAne
          | cons r rs =>
            have h1 : (l - total).toNat = ((l - total).toNat - 1) + 1 := by omega
            rw [h1, List.take_succ_cons]
            rfl
        rw [if_neg (by simp [hbne])]
        rw [dictInsert_of_not_mem _ _ _ (hkeys cat (List.mem_cons_self _ _))]
        have htr : truncAll fs T base tagFilter (l - total) (cat :: rest) =
            [(cat, (bucketFor fs T base tagFilter cat).take ((l - total).toNat))] := by
          simp only [truncAll]
          rw [if_neg (by simp [List.isEmpty_iff, hAne]), if_neg (by omega)]
        rw [htr]

/-! ## Handler-level characterizations -/

theorem limitBad_none : limitBad none = false := rfl

theorem limitBad_some_false {L : Int} (h : limitBad (some L) = false) : 1 ≤ L := by
  simp [limitBad] at h
  omega

theorem list_images_by_category_eq (fs : FS) (tf : TagsFile) (hostUrl category : String)
    (tagValues : List String) (limitRaw : Option String) (T : TagIndex)
    (hT : load_tags tf = Except.ok T)
    (hne : image_files_in fs category ≠ [])
    (hlim : limitBad (parseLimitArg limitRaw) = false) :
    list_images_by_category fs tf hostUrl category tagValues limitRaw =
      Except.ok (limTake (parseLimitArg limitRaw)
        (bucketFor fs T (base_url hostUrl) (lowerTags tagValues) category)) := by
  unfold list_images_by_category
  rw [hT]
  dsimp only
  rw [if_neg (by simp [List.isEmpty_iff, hne]), if_neg (by simp [hlim])]
  congr 1
  cases hp : parseLimitArg limitRaw with
  | none =>
    rw [byCategoryLoop_none]
    simp [limTake, bucketFor, lowerTags]
  | some L =>
    have hL : 1 ≤ L := limitBad_some_false (hp ▸ hlim)
    rw [byCategoryLoop_some _ _ _ _ L _ _ (by simp only [List.length_nil]; omega)]
    simp [limTake, bucketFor, lowerTags]

theorem list_images_by_category_notFound (fs : FS) (tf : TagsFile)
    (hostUrl category : String) (tagValues : List String) (limitRaw : Option String)
    (T : TagIndex) (hT : load_tags tf = Except.ok T)
    (he : image_files_in fs category = []) :
    list_images_by_category fs tf hostUrl category tagValues limitRaw =
      Except.error (ApiErr.notFound "Category not found or empty") := by
  unfold list_images_by_category
  rw [hT]
  dsimp only
  rw [if_pos (by simp [List.isEmpty_iff, he])]

theorem list_images_by_category_badLimit (fs : FS) (tf : TagsFile)
    (hostUrl category : String) (tagValues : List String) (limitRaw : Option String)
    (T : TagIndex) (hT : load_tags tf = Except.ok T)
    (hne : image_files_in fs category ≠ [])
    (hlim : limitBad (parseLimitArg limitRaw) = true) :
    list_images_by_category fs tf hostUrl category tagValues limitRaw =
      Except.error (ApiErr.badRequest "limit must be >= 1") := by
  unfold list_images_by_category
  rw [hT]
  dsimp only
  rw [if_neg (by simp [List.isEmpty_iff, hne]), if_pos hlim]

theorem list_images_by_category_ok_inv {fs : FS} {tf : TagsFile}
    {hostUrl category : String} {tagValues : List String} {limitRaw : Option String}
    {items : List ImageRecord}
    (hok : list_images_by_category fs tf hostUrl category tagValues limitRaw =
      Except.ok items) :
    ∃ T, load_tags tf = Except.ok T ∧ image_files_in fs category ≠ [] ∧
      limitBad (parseLimitArg limitRaw) = false ∧
      items = limTake (parseLimitArg limitRaw)
        (bucketFor fs T (base_url hostUrl) (lowerTags tagValues) category) := by
  cases hT : load_tags tf with
  | error e =>
    unfold list_images_by_category at hok
    rw [hT] at hok
    exact absurd hok (by simp)
  | ok T =>
    by_cases hne : image_files_in fs category = []
    · rw [list_images_by_category_notFound fs tf hostUrl category tagValues limitRaw T hT hne]
        at hok
      exact absurd hok (by simp)
    · by_cases hlim : limitBad (parseLimitArg limitRaw) = true
      · rw [list_images_by_category_badLimit fs tf hostUrl category tagValues limitRaw T hT
          hne hlim] at hok
        exact absurd hok (by simp)
      · rw [list_images_by_category_eq fs tf hostUrl category tagValues limitRaw T hT hne
          (Bool.eq_false_iff.mpr hlim)] at hok
        exact ⟨T, rfl, hne, Bool.eq_false_iff.mpr hlim,
          (Except.ok.injEq _ _ ▸ hok.symm :)⟩

theorem search_by_tag_eq (fs : FS) (tf : TagsFile) (hostUrl : String)
    (tagValues : List String) (limitRaw : Option String) (T : TagIndex)
    (hT : load_tags tf = Except.ok T)
    (htag : lowerTags tagValues ≠ [])
    (hlim : limitBad (parseLimitArg limitRaw) = false) :
    search_by_tag fs tf hostUrl tagValues limitRaw =
      Except.ok (limTake (parseLimitArg limitRaw)
        (((categories fs).map
          (searchBucketFor fs T (base_url hostUrl) (lowerTags tagValues))).flatten)) := by
  unfold search_by_tag
  rw [hT]
  dsimp only
  rw [if_neg (by simp only [List.isEmpty_iff]; exact htag), if_neg (by simp [hlim])]
  congr 1
  cases hp : parseLimitArg limitRaw with
  | none =>
    rw [searchLoop_none]
    simp [limTake, lowerTags]
  | some L =>
    have hL : 1 ≤ L := limitBad_some_false (hp ▸ hlim)
    rw [searchLoop_some _ _ _ _ L _ _ (by simp only [List.length_nil]; omega)]
    simp [limTake, lowerTags]

theorem search_by_tag_noTag (fs : FS) (tf : TagsFile) (hostUrl : String)
    (tagValues : List String) (limitRaw : Option String) (T : TagIndex)
    (hT : load_tags tf = Except.ok T)
    (htag : lowerTags tagValues = []) :
    search_by_tag fs tf hostUrl tagValues limitRaw =
      Except.error (ApiErr.badRequest "tag query parameter is required") := by
  unfold search_by_tag
  rw [hT]
  dsimp only
  rw [if_pos (by simp only [List.isEmpty_iff]; exact htag)]

theorem search_by_tag_badLimit (fs : FS) (tf : TagsFile) (hostUrl : String)
    (tagValues : List String) (limitRaw : Option String) (T : TagIndex)
    (hT : load_tags tf = Except.ok T)
    (htag : lowerTags tagValues ≠ [])
    (hlim : limitBad (parseLimitArg limitRaw) = true) :
    search_by_tag fs tf hostUrl tagValues limitRaw =
      Except.error (ApiErr.badRequest "limit must be >= 1") := by
  unfold search_by_tag
  rw [hT]
  dsimp only
  rw [if_neg (by simp only [List.isEmpty_iff]; exact htag), if_pos hlim]

theorem search_by_tag_ok_inv {fs : FS} {tf : TagsFile} {hostUrl : String}
    {tagValues : List String} {limitRaw : Option String} {results : List ImageRecord}
    (hok : search_by_tag fs tf hostUrl tagValues limitRaw = Except.ok results) :
    ∃ T, load_tags tf = Except.ok T ∧ lowerTags tagValues ≠ [] ∧
      limitBad (parseLimitArg limitRaw) = false ∧
      results = limTake (parseLimitArg limitRaw)
        (((categories fs).map
          (searchBucketFor fs T (base_url hostUrl) (lowerTags tagValues))).flatten) := by
  cases hT : load_tags tf with
  | error e =>
    unfold search_by_tag at hok
    rw [hT] at hok
    exact absurd hok (by simp)
  | ok T =>
    by_cases htag : lowerTags tagValues = []
    · rw [search_by_tag_noTag fs tf hostUrl tagValues limitRaw T hT htag] at hok
      exact absurd hok (by simp)
    · by_cases hlim : limitBad (parseLimitArg limitRaw) = true
      · rw [search_by_tag_badLimit fs tf hostUrl tagValues limitRaw T hT htag hlim] at hok
        exact absurd hok (by simp)
      · rw [search_by_tag_eq fs tf hostUrl tagValues limitRaw T hT htag
          (Bool.eq_false_iff.mpr hlim)] at hok
        exact ⟨T, rfl, htag, Bool.eq_false_iff.mpr hlim,
          (Except.ok.injEq _ _ ▸ hok.symm :)⟩

theorem list_all_images_eq_none (fs : FS) (tf : TagsFile) (hostUrl : String)
    (catValues tagValues : List String) (limitRaw : Option String) (T : TagIndex)
    (hT : load_tags tf = Except.ok T)
    (hp : parseLimitArg limitRaw = none)
    (hnd : (chosenCats fs catValues).Nodup) :
    list_all_images fs tf hostUrl catValues tagValues limitRaw =
      Except.ok (allFull fs T (base_url hostUrl) (lowerTags tagValues)
        (chosenCats fs catValues)) := by
  unfold list_all_images
  rw [hT]
  dsimp only
  rw [hp]
  rw [if_neg (by simp [limitBad])]
  congr 1
  rw [show (if (parse_multi_param catValues).isEmpty then categories fs
      else parse_multi_param catValues) = chosenCats fs catValues from rfl]
  rw [allImagesLoop_none fs (base_url hostUrl) T _ _ _ _ (by simp) hnd]
  simp [lowerTags]

theorem list_all_images_eq_some (fs : FS) (tf : TagsFile) (hostUrl : String)
    (catValues tagValues : List String) (limitRaw : Option String) (T : TagIndex)
    (L : Int) (hT : load_tags tf = Except.ok T)
    (hp : parseLimitArg limitRaw = some L) (hL : 1 ≤ L)
    (hnd : (chosenCats fs catValues).Nodup) :
    list_all_images fs tf hostUrl catValues tagValues limitRaw =
      Except.ok (truncAll fs T (base_url hostUrl) (lowerTags tagValues) L
        (chosenCats fs catValues)) := by
  unfold list_all_images
  rw [hT]
  dsimp only
  rw [hp]
  rw [if_neg (by simp [limitBad]; omega)]
  congr 1
  rw [show (if (parse_multi_param catValues).isEmpty then categories fs
      else parse_multi_param catValues) = chosenCats fs catValues from rfl]
  rw [allImagesLoop_some fs (base_url hostUrl) T _ L _ _ 0 le_rfl (by omega) (by simp) hnd]
  simp [lowerTags]

theorem list_all_images_badLimit (fs : FS) (tf : TagsFile) (hostUrl : String)
    (catValues tagValues : List String) (limitRaw : Option String) (T : TagIndex)
    (hT : load_tags tf = Except.ok T)
    (hlim : limitBad (parseLimitArg limitRaw) = true) :
    list_all_images fs tf hostUrl catValues tagValues limitRaw =
      Except.error (ApiErr.badRequest "limit must be >= 1") := by
  unfold list_all_images
  rw [hT]
  dsimp only
  rw [if_pos hlim]

theorem list_all_images_ok_inv {fs : FS} {tf : TagsFile} {hostUrl : String}
    {catValues tagValues : List String} {limitRaw : Option String}
    {data : List (String × List ImageRecord)}
    (hnd : (chosenCats fs catValues).Nodup)
    (hok : list_all_images fs tf hostUrl catValues tagValues limitRaw = Except.ok data) :
    ∃ T, load_tags tf = Except.ok T ∧
      ((parseLimitArg limitRaw = none ∧
        data = allFull fs T (base_url hostUrl) (lowerTags tagValues)
          (chosenCats fs catValues)) ∨
       (∃ L, parseLimitArg limitRaw = some L ∧ 1 ≤ L ∧
        data = truncAll fs T (base_url hostUrl) (lowerTags tagValues) L
          (chosenCats fs catValues))) := by
  cases hT : load_tags tf with
  | error e =>
    unfold list_all_images at hok
    rw [hT] at hok
    exact absurd hok (by simp)
  | ok T =>
    refine ⟨T, rfl, ?_⟩
    cases hp : parseLimitArg limitRaw with
    | none =>
      left
      refine ⟨rfl, ?_⟩
      rw [list_all_images_eq_none fs tf hostUrl catValues tagValues limitRaw T hT hp hnd]
        at hok
      exact (Except.ok.injEq _ _ ▸ hok.symm :)
    | some L =>
      right
      by_cases hL : 1 ≤ L
      · refine ⟨L, rfl, hL, ?_⟩
        rw [list_all_images_eq_some fs tf hostUrl catValues tagValues limitRaw T L hT hp hL
          hnd] at hok
        exact (Except.ok.injEq _ _ ▸ hok.symm :)
      · rw [list_all_images_badLimit fs tf hostUrl catValues tagValues limitRaw T hT
          (by rw [hp]; simp [limitBad]; omega)] at hok
        exact absurd hok (by simp)

/-! ## Structure of the `/images` response -/

theorem bucketFor_length (fs : FS) (T : TagIndex) (base : String)
    (tagFilter : List String) (cat : String) :
    (bucketFor fs T base tagFilter cat).length =
      ((image_files_in fs cat).filter
        (fun f => acceptTag tagFilter (tagsFor T cat f))).length := by
  simp [bucketFor, pendingRecords]

theorem take_ne_nil_of {α : Type} {l : List α} {n : Nat} (hl : l ≠ []) (hn : n ≠ 0) :
    l.take n ≠ [] := by
  cases l with
  | nil => exact absurd rfl hl
  | cons x xs =>
    have h1 : n = (n - 1) + 1 := by omega
    rw [h1, List.take_succ_cons]
    exact List.cons_ne_nil _ _

theorem truncAll_count (fs : FS) (T : TagIndex) (base : String)
    (tagFilter : List String) : ∀ (cats : List String) (need : Int), 1 ≤ need →
    totalRecords (truncAll fs T base tagFilter need cats) =
      min need.toNat (matchTotal fs T tagFilter cats) := by
  intro cats
  induction cats with
  | nil => intro need h; simp [truncAll, totalRecords, matchTotal]
  | cons c rest ih =>
    intro need h
    simp only [truncAll]
    by_cases hbe : (bucketFor fs T base tagFilter c).isEmpty = true
    · rw [if_pos hbe, ih need h]
      have hz : ((image_files_in fs c).filter
          (fun f => acceptTag tagFilter (tagsFor T c f))).length = 0 := by
        rw [← bucketFor_length fs T base tagFilter c, List.isEmpty_iff.mp hbe]
        rfl
      simp [matchTotal, hz]
    · rw [if_neg hbe]
      by_cases hsm : ((bucketFor fs T base tagFilter c).length : Int) < need
      · rw [if_pos hsm]
        have hneed : 1 ≤ need - (bucketFor fs T base tagFilter c).length := by omega
        simp only [totalRecords, List.map_cons, List.sum_cons]
        rw [show ((truncAll fs T base tagFilter
            (need - (bucketFor fs T base tagFilter c).length) rest).map
              (fun cb => cb.2.length)).sum =
          totalRecords (truncAll fs T base tagFilter
            (need - (bucketFor fs T base tagFilter c).length) rest) from rfl]
        rw [ih _ hneed]
        simp only [matchTotal, List.map_cons, List.sum_cons]
        rw [← bucketFor_length fs T base tagFilter c]
        rw [show ((rest.map (fun c => ((image_files_in fs c).filter
            (fun f => acceptTag tagFilter (tagsFor T c f))).length)).sum) =
          matchTotal fs T tagFilter rest from rfl]
        omega
      · rw [if_neg hsm]
        simp only [totalRecords, List.map_cons, List.map_nil, List.sum_cons, List.sum_nil,
          List.length_take]
        simp only [matchTotal, List.map_cons, List.sum_cons]
        rw [← bucketFor_length fs T base tagFilter c]
        omega

theorem TruncOf.cons {t f : List (String × List ImageRecord)}
    {x : String × List ImageRecord} (h : TruncOf t f) : TruncOf (x :: t) (x :: f) := by
  rcases h with ⟨post, hpost⟩ | ⟨pre, c, A, b, rest2, m, h1, h2, h3, h4⟩
  · exact Or.inl ⟨post, by rw [hpost]; rfl⟩
  · exact Or.inr ⟨x :: pre, c, A, b, rest2, m, by rw [h1]; rfl, by rw [h2]; rfl, h3, h4⟩

theorem truncAll_TruncOf (fs : FS) (T : TagIndex) (base : String)
    (tagFilter : List String) : ∀ (cats : List String) (need : Int), 1 ≤ need →
    TruncOf (truncAll fs T base tagFilter need cats)
      (allFull fs T base tagFilter cats) := by
  intro cats
  induction cats with
  | nil => intro need h; exact Or.inl ⟨[], rfl⟩
  | cons c rest ih =>
    intro need h
    simp only [truncAll, allFull, List.filterMap_cons]
    by_cases hbe : (bucketFor fs T base tagFilter c).isEmpty = true
    · rw [if_pos hbe]
      rw [show (if (bucketFor fs T base tagFilter c).isEmpty = true then
          (none : Option (String × List ImageRecord))
        else some (c, bucketFor fs T base tagFilter c)) = none from if_pos hbe]
      exact ih need h
    · rw [if_neg hbe]
      rw [show (if (bucketFor fs T base tagFilter c).isEmpty = true then
          (none : Option (String × List ImageRecord))
        else some (c, bucketFor fs T base tagFilter c)) =
          some (c, bucketFor fs T base tagFilter c) from if_neg hbe]
      by_cases hsm : ((bucketFor fs T base tagFilter c).length : Int) < need
      · rw [if_pos hsm]
        exact TruncOf.cons (ih _ (by omega))
      · rw [if_neg hsm]
        refine Or.inr ⟨[], c, bucketFor fs T base tagFilter c,
          (bucketFor fs T base tagFilter c).take need.toNat,
          allFull fs T base tagFilter rest, need.toNat, rfl, rfl, ?_, rfl⟩
        exact take_ne_nil_of (fun he => by simp [he] at hbe) (by omega)

theorem TruncOf.keys_sub {t f : List (String × List ImageRecord)} (h : TruncOf t f) :
    (t.map Prod.fst).Sublist (f.map Prod.fst) := by
  rcases h with ⟨post, hpost⟩ | ⟨pre, c, A, b, rest2, m, h1, h2, h3, h4⟩
  · rw [hpost, List.map_append]
    exact List.sublist_append_left _ _
  · rw [h1, h2, List.map_append, List.map_append, List.map_cons, List.map_cons,
      List.map_nil]
    exact List.Sublist.append_left ((List.nil_sublist _).cons₂ _) _

theorem TruncOf.mem_take {t f : List (String × List ImageRecord)}
    {c : String} {b : List ImageRecord} (h : TruncOf t f) (hm : (c, b) ∈ t) :
    ∃ A m, (c, A) ∈ f ∧ b = A.take m := by
  rcases h with ⟨post, hpost⟩ | ⟨pre, c0, A0, b0, rest2, m0, h1, h2, h3, h4⟩
  · exact ⟨b, b.length, by rw [hpost]; exact List.mem_append_left _ hm,
      (List.take_length _).symm⟩
  · rw [h2] at hm
    rcases List.mem_append.mp hm with hin | hin
    · exact ⟨b, b.length, by rw [h1]; exact List.mem_append_left _ hin,
        (List.take_length _).symm⟩
    · have he : (c, b) = (c0, b0) := List.mem_singleton.mp hin
      refine ⟨A0, m0, ?_, ?_⟩
      · rw [h1]
        apply List.mem_append_right
        rw [show c = c0 from congrArg Prod.fst he]
        exact List.mem_cons_self _ _
      · rw [show b = b0 from congrArg Prod.snd he, h4]

theorem mem_allFull {fs : FS} {T : TagIndex} {base : String} {tagFilter : List String}
    {cats : List String} {c : String} {b : List ImageRecord} :
    (c, b) ∈ allFull fs T base tagFilter cats ↔
      c ∈ cats ∧ b = bucketFor fs T base tagFilter c ∧ b ≠ [] := by
  induction cats with
  | nil => simp [allFull]
  | cons d rest ih =>
    simp only [allFull, List.filterMap_cons] at ih ⊢
    by_cases hbe : (bucketFor fs T base tagFilter d).isEmpty = true
    · rw [show (if (bucketFor fs T base tagFilter d).isEmpty = true then
          (none : Option (String × List ImageRecord))
        else some (d, bucketFor fs T base tagFilter d)) = none from if_pos hbe]
      rw [ih]
      constructor
      · rintro ⟨hc, hb, hne⟩
        exact ⟨List.mem_cons_of_mem _ hc, hb, hne⟩
      · rintro ⟨hc, hb, hne⟩
        rcases List.mem_cons.mp hc with he | hc2
        · exfalso
          apply hne
          rw [hb, he]
          exact List.isEmpty_iff.mp hbe
        · exact ⟨hc2, hb, hne⟩
    · rw [show (if (bucketFor fs T base tagFilter d).isEmpty = true then
          (none : Option (String × List ImageRecord))
        else some (d, bucketFor fs T base tagFilter d)) =
          some (d, bucketFor fs T base tagFilter d) from if_neg hbe]
      rw [List.mem_cons, ih]
      constructor
      · rintro (he | ⟨hc, hb, hne⟩)
        · have hc : c = d := congrArg Prod.fst he
          have hb : b = bucketFor fs T base tagFilter d := congrArg Prod.snd he
          subst hc
          refine ⟨List.mem_cons_self _ _, hb, ?_⟩
          rw [hb]
          exact fun hnil => hbe (by simp [hnil])
        · exact ⟨List.mem_cons_of_mem _ hc, hb, hne⟩
      · rintro ⟨hc, hb, hne⟩
        rcases List.mem_cons.mp hc with he | hc2
        · left
          rw [he] at hb
          rw [he, hb]
        · right
          exact ⟨hc2, hb, hne⟩

theorem allFull_keys_sub (fs : FS) (T : TagIndex) (base : String)
    (tagFilter : List String) (cats : List String) :
    ((allFull fs T base tagFilter cats).map Prod.fst).Sublist cats := by
  induction cats with
  | nil => simp [allFull]
  | cons d rest ih =>
    simp only [allFull, List.filterMap_cons] at ih ⊢
    by_cases hbe : (bucketFor fs T base tagFilter d).isEmpty = true
    · rw [show (if (bucketFor fs T base tagFilter d).isEmpty = true then
          (none : Option (String × List ImageRecord))
        else some (d, bucketFor fs T base tagFilter d)) = none from if_pos hbe]
      exact ih.cons _
    · rw [show (if (bucketFor fs T base tagFilter d).isEmpty = true then
          (none : Option (String × List ImageRecord))
        else some (d, bucketFor fs T base tagFilter d)) =
          some (d, bucketFor fs T base tagFilter d) from if_neg hbe]
      simp only [List.map_cons]
      exact ih.cons₂ _

theorem bucketFor_filenames (fs : FS) (T : TagIndex) (base : String)
    (tagFilter : List String) (cat : String) :
    (bucketFor fs T base tagFilter cat).map ImageRecord.filename =
      (image_files_in fs cat).filter (fun f => acceptTag tagFilter (tagsFor T cat f)) := by
  simp only [bucketFor, pendingRecords, List.map_map]
  rw [show (ImageRecord.filename ∘ fun f => mkRecord base cat f (tagsFor T cat f)) = id
    from funext (fun f => rfl), List.map_id]

theorem searchBucketFor_filenames (fs : FS) (T : TagIndex) (base : String)
    (tagFilter : List String) (cat : String) :
    (searchBucketFor fs T base tagFilter cat).map ImageRecord.filename =
      (image_files_in fs cat).filter (fun f => matchAny tagFilter (tagsFor T cat f)) := by
  simp only [searchBucketFor, searchPending, List.map_map]
  rw [show (ImageRecord.filename ∘ fun f => mkRecord base cat f (tagsFor T cat f)) = id
    from funext (fun f => rfl), List.map_id]

theorem searchBucketFor_category {fs : FS} {T : TagIndex} {base : String}
    {tagFilter : List String} {cat : String} {r : ImageRecord}
    (hr : r ∈ searchBucketFor fs T base tagFilter cat) : r.category = cat := by
  simp only [searchBucketFor, searchPending, List.mem_map] at hr
  rcases hr with ⟨f, _, rfl⟩
  rfl

/-! ## Origin of emitted records -/

theorem mem_limTake {limit : Option Int} {xs : List ImageRecord} {r : ImageRecord}
    (h : r ∈ limTake limit xs) : r ∈ xs := by
  cases limit with
  | none => exact h
  | some l => exact List.mem_of_mem_take h

theorem mem_pendingRecords {base cat : String} {T : TagIndex} {tagFilter : List String}
    {files : List String} {r : ImageRecord}
    (h : r ∈ pendingRecords base cat T tagFilter files) :
    ∃ f ∈ files, r = mkRecord base cat f (tagsFor T cat f) := by
  simp only [pendingRecords, List.mem_map] at h
  rcases h with ⟨f, hf, rfl⟩
  exact ⟨f, (List.mem_filter.mp hf).1, rfl⟩

theorem mem_searchPending {base cat : String} {T : TagIndex} {tagFilter : List String}
    {files : List String} {r : ImageRecord}
    (h : r ∈ searchPending base cat T tagFilter files) :
    ∃ f ∈ files, r = mkRecord base cat f (tagsFor T cat f) := by
  simp only [searchPending, List.mem_map] at h
  rcases h with ⟨f, hf, rfl⟩
  exact ⟨f, (List.mem_filter.mp hf).1, rfl⟩

theorem allImagesInner_mem (base cat : String) (T : TagIndex) (tagFilter : List String)
    (limit : Option Int) : ∀ (files : List String) (bucket : List ImageRecord)
    (total : Int) {r : ImageRecord},
    r ∈ (allImagesInner base cat T tagFilter limit files bucket total).1 →
    r ∈ bucket ∨ ∃ f ∈ files, r = mkRecord base cat f (tagsFor T cat f) := by
  intro files
  induction files with
  | nil =>
    intro bucket total r hr
    simp only [allImagesInner] at hr
    exact Or.inl hr
  | cons f rest ih =>
    intro bucket total r hr
    by_cases hacc : acceptTag tagFilter (tagsFor T cat f) = true
    · cases limit with
      | none =>
        simp only [allImagesInner, hacc, if_true] at hr
        rcases ih _ _ hr with h1 | ⟨g, hg, hrg⟩
        · rcases List.mem_append.mp h1 with h2 | h2
          · exact Or.inl h2
          · exact Or.inr ⟨f, List.mem_cons_self _ _, List.mem_singleton.mp h2⟩
        · exact Or.inr ⟨g, List.mem_cons_of_mem _ hg, hrg⟩
      | some l =>
        simp only [allImagesInner, hacc, if_true] at hr
        by_cases hstop : l ≤ total + 1
        · rw [if_pos hstop] at hr
          rcases List.mem_append.mp hr with h2 | h2
          · exact Or.inl h2
          · exact Or.inr ⟨f, List.mem_cons_self _ _, List.mem_singleton.mp h2⟩
        · rw [if_neg hstop] at hr
          rcases ih _ _ hr with h1 | ⟨g, hg, hrg⟩
          · rcases List.mem_append.mp h1 with h2 | h2
            · exact Or.inl h2
            · exact Or.inr ⟨f, List.mem_cons_self _ _, List.mem_singleton.mp h2⟩
          · exact Or.inr ⟨g, List.mem_cons_of_mem _ hg, hrg⟩
    · simp only [allImagesInner, hacc, Bool.false_eq_true, if_false] at hr
      rcases ih _ _ hr with h1 | ⟨g, hg, hrg⟩
      · exact Or.inl h1
      · exact Or.inr ⟨g, List.mem_cons_of_mem _ hg, hrg⟩

theorem allImagesLoop_mem (fs : FS) (base : String) (T : TagIndex)
    (tagFilter : List String) (limit : Option Int) : ∀ (cats : List String)
    (data : List (String × List ImageRecord)) (total : Int)
    {c : String} {b : List ImageRecord},
    (c, b) ∈ allImagesLoop fs base T tagFilter limit cats data total →
    (c, b) ∈ data ∨ (c ∈ cats ∧ ∀ r ∈ b, ∃ f ∈ image_files_in fs c,
      r = mkRecord base c f (tagsFor T c f)) := by
  intro cats
  induction cats with
  | nil =>
    intro data total c b hm
    simp only [allImagesLoop] at hm
    exact Or.inl hm
  | cons cat rest ih =>
    intro data total c b hm
    simp only [allImagesLoop] at hm
    by_cases hfe : (image_files_in fs cat).isEmpty = true
    · rw [if_pos hfe] at hm
      rcases ih _ _ hm with h1 | ⟨hc, hrec⟩
      · exact Or.inl h1
      · exact Or.inr ⟨List.mem_cons_of_mem _ hc, hrec⟩
    · rw [if_neg hfe] at hm
      rcases hres : allImagesInner base cat T tagFilter limit (image_files_in fs cat) [] total
        with ⟨bucket, total', flag⟩
      rw [hres] at hm
      have hbucket : ∀ r ∈ bucket, ∃ f ∈ image_files_in fs cat,
          r = mkRecord base cat f (tagsFor T cat f) := by
        intro r hr
        have h0 : r ∈ (allImagesInner base cat T tagFilter limit
            (image_files_in fs cat) [] total).1 := by rw [hres]; exact hr
        rcases allImagesInner_mem base cat T tagFilter limit _ _ _ h0 with h1 | h1
        · exact absurd h1 (List.not_mem_nil r)
        · exact h1
      cases flag with
      | true =>
        dsimp only at hm
        by_cases hbe : bucket.isEmpty = true
        · rw [if_pos hbe] at hm
          exact Or.inl hm
        · rw [if_neg hbe] at hm
          rcases mem_dictInsert hm with h1 | h1
          · exact Or.inl h1
          · have hc : c = cat := congrArg Prod.fst h1
            have hb : b = bucket := congrArg Prod.snd h1
            subst hc
            exact Or.inr ⟨List.mem_cons_self _ _, hb ▸ hbucket⟩
      | false =>
        dsimp only at hm
        rcases ih _ _ hm with h1 | ⟨hc, hrec⟩
        · by_cases hbe : bucket.isEmpty = true
          · rw [if_pos hbe] at h1
            exact Or.inl h1
          · rw [if_neg hbe] at h1
            rcases mem_dictInsert h1 with h2 | h2
            · exact Or.inl h2
            · have hc : c = cat := congrArg Prod.fst h2
              have hb : b = bucket := congrArg Prod.snd h2
              subst hc
              exact Or.inr ⟨List.mem_cons_self _ _, hb ▸ hbucket⟩
        · exact Or.inr ⟨List.mem_cons_of_mem _ hc, hrec⟩

theorem list_all_images_records {fs : FS} {tf : TagsFile} {hostUrl : String}
    {catValues tagValues : List String} {limitRaw : Option String}
    {data : List (String × List ImageRecord)}
    (hok : list_all_images fs tf hostUrl catValues tagValues limitRaw = Except.ok data) :
    ∃ T, load_tags tf = Except.ok T ∧
      ∀ cb ∈ data, ∀ r ∈ cb.2, ∃ f ∈ image_files_in fs cb.1,
        r = mkRecord (base_url hostUrl) cb.1 f (tagsFor T cb.1 f) := by
  cases hT : load_tags tf with
  | error e =>
    unfold list_all_images at hok
    rw [hT] at hok
    exact absurd hok (by simp)
  | ok T =>
    refine ⟨T, rfl, ?_⟩
    unfold list_all_images at hok
    rw [hT] at hok
    dsimp only at hok
    by_cases hlim : limitBad (parseLimitArg limitRaw) = true
    · rw [if_pos hlim] at hok
      exact absurd hok (by simp)
    · rw [if_neg hlim] at hok
      have hdata := (Except.ok.injEq _ _ ▸ hok :)
      intro cb hcb r hr
      rcases cb with ⟨c, b⟩
      have hm : (c, b) ∈ allImagesLoop fs (base_url hostUrl) T
          ((parse_multi_param tagValues).map pyLower) (parseLimitArg limitRaw)
          (if (parse_multi_param catValues).isEmpty then categories fs
            else parse_multi_param catValues) [] 0 := by
        rw [hdata]
        exact hcb
      rcases allImagesLoop_mem fs (base_url hostUrl) T _ _ _ _ _ hm with h1 | ⟨_, hrec⟩
      · exact absurd h1 (List.not_mem_nil _)
      · exact hrec r hr

/-! ## Normalization of the tag store -/

theorem normalizeEntries_mem_inv : ∀ (entries : List (String × JValue))
    {c : String} {fv : List (String × List String)},
    (c, fv) ∈ normalizeEntries entries →
    ∃ files, (c, JValue.obj files) ∈ entries ∧
      fv = files.map (fun ft => (ft.1, normTag ft.2)) := by
  intro entries
  induction entries with
  | nil => intro c fv hm; simp [normalizeEntries] at hm
  | cons entry rest ih =>
    intro c fv hm
    rcases entry with ⟨c0, v0⟩
    cases v0 with
    | obj files =>
      simp only [normalizeEntries] at hm
      rcases List.mem_cons.mp hm with he | hin
      · have hc : c = c0 := congrArg Prod.fst he
        have hf : fv = files.map (fun ft => (ft.1, normTag ft.2)) := congrArg Prod.snd he
        subst hc
        exact ⟨files, List.mem_cons_self _ _, hf⟩
      · rcases ih hin with ⟨files2, hm2, hf2⟩
        exact ⟨files2, List.mem_cons_of_mem _ hm2, hf2⟩
    | null =>
      simp only [normalizeEntries] at hm
      rcases ih hm with ⟨files2, hm2, hf2⟩
      exact ⟨files2, List.mem_cons_of_mem _ hm2, hf2⟩
    | bool b0 =>
      simp only [normalizeEntries] at hm
      rcases ih hm with ⟨files2, hm2, hf2⟩
      exact ⟨files2, List.mem_cons_of_mem _ hm2, hf2⟩
    | num n0 =>
      simp only [normalizeEntries] at hm
      rcases ih hm with ⟨files2, hm2, hf2⟩
      exact ⟨files2, List.mem_cons_of_mem _ hm2, hf2⟩
    | str s0 =>
      simp only [normalizeEntries] at hm
      rcases ih hm with ⟨files2, hm2, hf2⟩
      exact ⟨files2, List.mem_cons_of_mem _ hm2, hf2⟩
    | arr xs0 =>
      simp only [normalizeEntries] at hm
      rcases ih hm with ⟨files2, hm2, hf2⟩
      exact ⟨files2, List.mem_cons_of_mem _ hm2, hf2⟩

theorem normalizeEntries_mem_obj : ∀ (entries : List (String × JValue))
    {c : String} {files : List (String × JValue)},
    (c, JValue.obj files) ∈ entries →
    (c, files.map (fun ft => (ft.1, normTag ft.2))) ∈ normalizeEntries entries := by
  intro entries
  induction entries with
  | nil => intro c files hm; simp at hm
  | cons entry rest ih =>
    intro c files hm
    rcases List.mem_cons.mp hm with he | hin
    · rw [← he]
      simp only [normalizeEntries]
      exact List.mem_cons_self _ _
    · rcases entry with ⟨c0, v0⟩
      cases v0 with
      | obj files0 =>
        simp only [normalizeEntries]
        exact List.mem_cons_of_mem _ (ih hin)
      | null => simpa only [normalizeEntries] using ih hin
      | bool b0 => simpa only [normalizeEntries] using ih hin
      | num n0 => simpa only [normalizeEntries] using ih hin
      | str s0 => simpa only [normalizeEntries] using ih hin
      | arr xs0 => simpa only [normalizeEntries] using ih hin

theorem normalizeEntries_keys_sub : ∀ (entries : List (String × JValue)) {c : String},
    c ∈ (normalizeEntries entries).map Prod.fst → c ∈ entries.map Prod.fst := by
  intro entries c hm
  rcases List.mem_map.mp hm with ⟨⟨c1, fv⟩, hmem, hc⟩
  rcases normalizeEntries_mem_inv entries hmem with ⟨files, hin, _⟩
  rw [← hc]
  exact List.mem_map.mpr ⟨(c1, JValue.obj files), hin, rfl⟩

theorem normalizeEntries_dropped : ∀ (entries : List (String × JValue))
    {c : String} {v : JValue},
    (entries.map Prod.fst).Nodup → (c, v) ∈ entries →
    (∀ files, v ≠ JValue.obj files) → c ∉ (normalizeEntries entries).map Prod.fst := by
  intro entries
  induction entries with
  | nil => intro c v _ hm; simp at hm
  | cons entry rest ih =>
    intro c v hnd hm hnotobj
    rcases entry with ⟨c0, v0⟩
    simp only [List.map_cons, List.nodup_cons] at hnd
    rcases List.mem_cons.mp hm with he | hin
    · have hc : c = c0 := congrArg Prod.fst he
      have hv : v = v0 := congrArg Prod.snd he
      subst hc
      subst hv
      cases v with
      | obj files => exact absurd rfl (hnotobj files)
      | null =>
        simp only [normalizeEntries]
        intro hmem
        exact hnd.1 (normalizeEntries_keys_sub rest hmem)
      | bool b0 =>
        simp only [normalizeEntries]
        intro hmem
        exact hnd.1 (normalizeEntries_keys_sub rest hmem)
      | num n0 =>
        simp only [normalizeEntries]
        intro hmem
        exact hnd.1 (normalizeEntries_keys_sub rest hmem)
      | str s0 =>
        simp only [normalizeEntries]
        intro hmem
        exact hnd.1 (normalizeEntries_keys_sub rest hmem)
      | arr xs0 =>
        simp only [normalizeEntries]
        intro hmem
        exact hnd.1 (normalizeEntries_keys_sub rest hmem)
    · have hcrest : c ∈ rest.map Prod.fst :=
        List.mem_map.mpr ⟨(c, v), hin, rfl⟩
      have hnotc0 : c ≠ c0 := fun he => hnd.1 (he ▸ hcrest)
      have hrest : c ∉ (normalizeEntries rest).map Prod.fst := ih hnd.2 hin hnotobj
      cases v0 with
      | obj files0 =>
        simp only [normalizeEntries, List.map_cons, List.mem_cons]
        intro hmem
        rcases hmem with he | hmem2
        · exact hnotc0 he
        · exact hrest hmem2
      | null => simpa only [normalizeEntries] using hrest
      | bool b0 => simpa only [normalizeEntries] using hrest
      | num n0 => simpa only [normalizeEntries] using hrest
      | str s0 => simpa only [normalizeEntries] using hrest
      | arr xs0 => simpa only [normalizeEntries] using hrest

/-! ## Tag-match membership -/

theorem matchAny_iff {tagValues tags : List String} :
    matchAny (lowerTags tagValues) tags = true ↔
      ∃ tg ∈ tags, ∃ q ∈ parse_multi_param tagValues, pyLower tg = pyLower q := by
  simp only [matchAny, lowerTags, List.any_eq_true, List.mem_map]
  constructor
  · rintro ⟨t, ⟨q, hq, rfl⟩, hcont⟩
    rcases List.mem_map.mp (List.elem_iff.mp hcont) with ⟨tg, htg, he⟩
    exact ⟨tg, htg, q, hq, he⟩
  · rintro ⟨tg, htg, q, hq, he⟩
    exact ⟨pyLower q, ⟨q, hq, rfl⟩,
      List.elem_iff.mpr (List.mem_map.mpr ⟨tg, htg, he⟩)⟩

theorem mem_bucketFor {fs : FS} {T : TagIndex} {base : String} {tagFilter : List String}
    {cat f : String} :
    mkRecord base cat f (tagsFor T cat f) ∈ bucketFor fs T base tagFilter cat ↔
      f ∈ image_files_in fs cat ∧ acceptTag tagFilter (tagsFor T cat f) = true := by
  constructor
  · intro h
    simp only [bucketFor, pendingRecords, List.mem_map] at h
    rcases h with ⟨g, hg, he⟩
    have hgf : g = f := congrArg ImageRecord.filename he
    subst hgf
    exact ⟨(List.mem_filter.mp hg).1, (List.mem_filter.mp hg).2⟩
  · rintro ⟨h1, h2⟩
    simp only [bucketFor, pendingRecords, List.mem_map]
    exact ⟨f, List.mem_filter.mpr ⟨h1, h2⟩, rfl⟩

theorem mem_searchBucketFor {fs : FS} {T : TagIndex} {base : String}
    {tagFilter : List String} {cat f : String} :
    mkRecord base cat f (tagsFor T cat f) ∈ searchBucketFor fs T base tagFilter cat ↔
      f ∈ image_files_in fs cat ∧ matchAny tagFilter (tagsFor T cat f) = true := by
  constructor
  · intro h
    simp only [searchBucketFor, searchPending, List.mem_map] at h
    rcases h with ⟨g, hg, he⟩
    have hgf : g = f := congrArg ImageRecord.filename he
    subst hgf
    exact ⟨(List.mem_filter.mp hg).1, (List.mem_filter.mp hg).2⟩
  · rintro ⟨h1, h2⟩
    simp only [searchBucketFor, searchPending, List.mem_map]
    exact ⟨f, List.mem_filter.mpr ⟨h1, h2⟩, rfl⟩

theorem mem_pendingRecords_full {base cat : String} {T : TagIndex}
    {tagFilter : List String} {files : List String} {r : ImageRecord}
    (h : r ∈ pendingRecords base cat T tagFilter files) :
    ∃ f, (f ∈ files ∧ acceptTag tagFilter (tagsFor T cat f) = true) ∧
      r = mkRecord base cat f (tagsFor T cat f) := by
  simp only [pendingRecords, List.mem_map] at h
  rcases h with ⟨f, hf, rfl⟩
  exact ⟨f, ⟨(List.mem_filter.mp hf).1, (List.mem_filter.mp hf).2⟩, rfl⟩

theorem mem_searchPending_full {base cat : String} {T : TagIndex}
    {tagFilter : List String} {files : List String} {r : ImageRecord}
    (h : r ∈ searchPending base cat T tagFilter files) :
    ∃ f, (f ∈ files ∧ matchAny tagFilter (tagsFor T cat f) = true) ∧
      r = mkRecord base cat f (tagsFor T cat f) := by
  simp only [searchPending, List.mem_map] at h
  rcases h with ⟨f, hf, rfl⟩
  exact ⟨f, ⟨(List.mem_filter.mp hf).1, (List.mem_filter.mp hf).2⟩, rfl⟩

/-! ## The claims -/

/-- C1: in the all-categories listing with a parsed limit `L ≥ 1`, the
total number of records across all category buckets equals
`min L (total matching records)`; moreover the response is a truncation of
the un-limited response: every emitted bucket except possibly the last is
the category's full bucket, the last bucket is a nonempty initial part of
its category's full bucket, and no bucket past the truncation point is
emitted (the loop finalizes the moment the running counter reaches `L`). -/
theorem C1_all_categories_global_limit (fs : FS) (tf : TagsFile) (hostUrl : String)
    (catValues tagValues : List String) (limitRaw : Option String) (T : TagIndex)
    (L : Int) (data : List (String × List ImageRecord))
    (hT : load_tags tf = Except.ok T)
    (hp : parseLimitArg limitRaw = some L) (hL : 1 ≤ L)
    (hnd : (chosenCats fs catValues).Nodup)
    (hok : list_all_images fs tf hostUrl catValues tagValues limitRaw = Except.ok data) :
    totalRecords data = min L.toNat
      (matchTotal fs T (lowerTags tagValues) (chosenCats fs catValues)) ∧
    TruncOf data
      (allFull fs T (base_url hostUrl) (lowerTags tagValues) (chosenCats fs catValues)) := by
  rw [list_all_images_eq_some fs tf hostUrl catValues tagValues limitRaw T L hT hp hL hnd]
    at hok
  have hdata : data = truncAll fs T (base_url hostUrl) (lowerTags tagValues) L
      (chosenCats fs catValues) := (Except.ok.injEq _ _ ▸ hok.symm :)
  rw [hdata]
  exact ⟨truncAll_count fs T (base_url hostUrl) (lowerTags tagValues) _ L hL,
    truncAll_TruncOf fs T (base_url hostUrl) (lowerTags tagValues) _ L hL⟩

theorem C1_witness :
    totalRecords [("a", [mkRecord "h" "a" "x.jpg" []])] =
      min ((1 : Int)).toNat (matchTotal fsB [] (lowerTags []) (chosenCats fsB [])) ∧
    TruncOf [("a", [mkRecord "h" "a" "x.jpg" []])]
      (allFull fsB [] (base_url "h") (lowerTags []) (chosenCats fsB [])) :=
  C1_all_categories_global_limit fsB TagsFile.absent "h" [] [] (some "1") [] 1
    [("a", [mkRecord "h" "a" "x.jpg" []])] rfl (by decide) (by decide) (by decide) rfl

/-- C5: in the single-category shape, a category whose file listing is
empty (directory absent or no recognized image files) yields the
not-found failure; a category with at least one listed file and a valid
limit yields the flat sequence of accepted records, truncated to the
limit. -/
theorem C5_single_category_not_found (fs : FS) (tf : TagsFile)
    (hostUrl category : String) (tagValues : List String) (limitRaw : Option String)
    (T : TagIndex) (hT : load_tags tf = Except.ok T) :
    (image_files_in fs category = [] →
      list_images_by_category fs tf hostUrl category tagValues limitRaw =
        Except.error (ApiErr.notFound "Category not found or empty")) ∧
    (image_files_in fs category ≠ [] →
      limitBad (parseLimitArg limitRaw) = false →
      list_images_by_category fs tf hostUrl category tagValues limitRaw =
        Except.ok (limTake (parseLimitArg limitRaw)
          (bucketFor fs T (base_url hostUrl) (lowerTags tagValues) category))) :=
  ⟨fun he => list_images_by_category_notFound fs tf hostUrl category tagValues limitRaw
      T hT he,
   fun hne hlim => list_images_by_category_eq fs tf hostUrl category tagValues limitRaw
      T hT hne hlim⟩

theorem C5_witness :
    list_images_by_category fsA TagsFile.absent "http://h" "widgets" [] none =
      Except.error (ApiErr.notFound "Category not found or empty") ∧
    list_images_by_category fsA tfA "http://h" "components" [] none =
      Except.ok (limTake (parseLimitArg none)
        (bucketFor fsA TA (base_url "http://h") (lowerTags []) "components")) :=
  ⟨(C5_single_category_not_found fsA TagsFile.absent "http://h" "widgets" [] none []
      rfl).1 (by decide),
   (C5_single_category_not_found fsA tfA "http://h" "components" [] none TA
      rfl).2 (by decide) rfl⟩

/-- C6: the cross-category search reports the invalid-argument failure
whenever the tag parameter yields no tokens after parsing (absent, empty,
or only empty/whitespace tokens) — never an empty result set. -/
theorem C6_search_requires_tag (fs : FS) (tf : TagsFile) (hostUrl : String)
    (tagValues : List String) (limitRaw : Option String) (T : TagIndex)
    (hT : load_tags tf = Except.ok T)
    (hz : parse_multi_param tagValues = []) :
    search_by_tag fs tf hostUrl tagValues limitRaw =
      Except.error (ApiErr.badRequest "tag query parameter is required") :=
  search_by_tag_noTag fs tf hostUrl tagValues limitRaw T hT
    (by simp [lowerTags, hz])

theorem C6_witness :
    search_by_tag fsA TagsFile.absent "h" [" ,  ,", ""] (some "5") =
      Except.error (ApiErr.badRequest "tag query parameter is required") :=
  C6_search_requires_tag fsA TagsFile.absent "h" [" ,  ,", ""] (some "5") [] rfl
    (by decide)

/-- C7 (code bug): the loader returns an empty index for an absent store,
for undecodable JSON, and for a top-level non-mapping — and an absent
store makes every returned record carry empty tags — but an existing,
unreadable store raises out of `load_tags` (the `open` call sits outside
the `try`), failing the whole request with a server error instead of
degrading to an empty index. -/
theorem C7_loader_error_containment :
    load_tags TagsFile.absent = Except.ok [] ∧
    load_tags TagsFile.invalidJson = Except.ok [] ∧
    (∀ v : JValue, (∀ e, v ≠ JValue.obj e) →
      load_tags (TagsFile.content v) = Except.ok []) ∧
    load_tags TagsFile.unreadable = Except.error () ∧
    (∀ (fs : FS) (hostUrl : String) (catValues tagValues : List String)
        (limitRaw : Option String),
      list_all_images fs TagsFile.unreadable hostUrl catValues tagValues limitRaw =
        Except.error ApiErr.serverError) ∧
    (∀ (fs : FS) (hostUrl : String) (catValues tagValues : List String)
        (limitRaw : Option String) (data : List (String × List ImageRecord)),
      list_all_images fs TagsFile.absent hostUrl catValues tagValues limitRaw =
        Except.ok data → ∀ cb ∈ data, ∀ r ∈ cb.2, r.tags = []) := by
  refine ⟨rfl, rfl, ?_, rfl, ?_, ?_⟩
  · intro v hv
    cases v with
    | obj e => exact absurd rfl (hv e)
    | null => rfl
    | bool b => rfl
    | num n => rfl
    | str s => rfl
    | arr xs => rfl
  · intro fs hostUrl catValues tagValues limitRaw
    rfl
  · intro fs hostUrl catValues tagValues limitRaw data hok cb hcb r hr
    rcases list_all_images_records hok with ⟨T, hT, horigin⟩
    have hTnil : T = ([] : TagIndex) := (Except.ok.inj hT).symm
    rcases horigin cb hcb r hr with ⟨f, _, rfl⟩
    rw [hTnil]
    rfl

theorem C7_witness :
    (mkRecord (base_url "h") "a" "x.jpg" (tagsFor [] "a" "x.jpg")).tags = [] := by
  have h := C7_loader_error_containment.2.2.2.2.2 fsB "h" [] [] none
    [("a", [mkRecord "h" "a" "x.jpg" []]), ("b", [mkRecord "h" "b" "y.jpg" []])] rfl
  exact h ("a", [mkRecord "h" "a" "x.jpg" []]) (by decide)
    (mkRecord "h" "a" "x.jpg" []) (by decide)

/-- C8: loading a store whose top level is a mapping keeps exactly the
category entries whose value is mapping-shaped (dropping the others
entirely), and normalizes every surviving per-filename annotation to a
sequence of strings: a JSON array becomes the element-wise `str` image,
any other value is wrapped as a one-element sequence of its `str` image. -/
theorem C8_tag_index_normalization (entries : List (String × JValue))
    (hnd : (entries.map Prod.fst).Nodup) :
    load_tags (TagsFile.content (JValue.obj entries)) =
      Except.ok (normalizeEntries entries) ∧
    (∀ c files, (c, JValue.obj files) ∈ entries →
      (c, files.map (fun ft => (ft.1, normTag ft.2))) ∈ normalizeEntries entries) ∧
    (∀ c v, (c, v) ∈ entries → (∀ files, v ≠ JValue.obj files) →
      c ∉ (normalizeEntries entries).map Prod.fst) ∧
    (∀ c fv, (c, fv) ∈ normalizeEntries entries →
      ∃ files, (c, JValue.obj files) ∈ entries ∧
        fv = files.map (fun ft => (ft.1, normTag ft.2))) ∧
    (∀ xs, normTag (JValue.arr xs) = xs.map pyStr) ∧
    (∀ v, (∀ xs, v ≠ JValue.arr xs) → normTag v = [pyStr v]) := by
  refine ⟨rfl, ?_, ?_, ?_, fun xs => rfl, ?_⟩
  · intro c files hm
    exact normalizeEntries_mem_obj entries hm
  · intro c v hm hnotobj
    exact normalizeEntries_dropped entries hnd hm hnotobj
  · intro c fv hm
    exact normalizeEntries_mem_inv entries hm
  · intro v hv
    cases v with
    | arr xs => exact absurd rfl (hv xs)
    | null => rfl
    | bool b => rfl
    | num n => rfl
    | str s => rfl
    | obj fields => rfl

theorem C8_witness :
    ("components", [("a.png", normTag (JValue.arr [JValue.str "Hypar"])),
      ("b.jpg", normTag (JValue.str "joint"))]) ∈ normalizeEntries entriesA ∧
    "bogus" ∉ (normalizeEntries entriesA).map Prod.fst := by
  obtain ⟨_, hkeep, hdrop, _, _, _⟩ := C8_tag_index_normalization entriesA (by decide)
  refine ⟨?_, ?_⟩
  · exact hkeep "components"
      [("a.png", JValue.arr [JValue.str "Hypar"]), ("b.jpg", JValue.str "joint")]
      (List.mem_cons_self _ _)
  · exact hdrop "bogus" (JValue.str "oops")
      (List.mem_cons_of_mem _ (List.mem_cons_self _ _))
      (fun files h => JValue.noConfusion h)

/-- C10: in the single-category shape the empty-listing check runs before
limit validation, so an empty category together with an invalid limit
yields not-found; in the other two shapes the limit is validated before
any listing, yielding invalid-argument (for the search shape, once a tag
filter is present). -/
theorem C10_error_precedence (fs : FS) (tf : TagsFile) (hostUrl category : String)
    (catValues tagValues : List String) (limitRaw : Option String) (T : TagIndex)
    (L : Int) (hT : load_tags tf = Except.ok T) :
    (image_files_in fs category = [] →
      list_images_by_category fs tf hostUrl category tagValues limitRaw =
        Except.error (ApiErr.notFound "Category not found or empty")) ∧
    (parseLimitArg limitRaw = some L → L < 1 →
      list_all_images fs tf hostUrl catValues tagValues limitRaw =
        Except.error (ApiErr.badRequest "limit must be >= 1")) ∧
    (parseLimitArg limitRaw = some L → L < 1 → lowerTags tagValues ≠ [] →
      search_by_tag fs tf hostUrl tagValues limitRaw =
        Except.error (ApiErr.badRequest "limit must be >= 1")) := by
  refine ⟨?_, ?_, ?_⟩
  · intro he
    exact list_images_by_category_notFound fs tf hostUrl category tagValues limitRaw
      T hT he
  · intro hp hl
    exact list_all_images_badLimit fs tf hostUrl catValues tagValues limitRaw T hT
      (by rw [hp]; simp [limitBad]; omega)
  · intro hp hl htag
    exact search_by_tag_badLimit fs tf hostUrl tagValues limitRaw T hT htag
      (by rw [hp]; simp [limitBad]; omega)

theorem C10_witness :
    list_images_by_category fsA TagsFile.absent "h" "widgets" ["joint"] (some "0") =
      Except.error (ApiErr.notFound "Category not found or empty") ∧
    list_all_images fsA TagsFile.absent "h" [] ["joint"] (some "0") =
      Except.error (ApiErr.badRequest "limit must be >= 1") ∧
    search_by_tag fsA TagsFile.absent "h" ["joint"] (some "0") =
      Except.error (ApiErr.badRequest "limit must be >= 1") := by
  obtain ⟨h1, h2, h3⟩ := C10_error_precedence fsA TagsFile.absent "h" "widgets" []
    ["joint"] (some "0") [] 0 rfl
  exact ⟨h1 (by decide), h2 (by decide) (by decide), h3 (by decide) (by decide) (by decide)⟩

theorem bucket_take_filenames_pairwise (fs : FS) (T : TagIndex) (base : String)
    (tagFilter : List String) (cat : String) (m : Nat) :
    List.Pairwise pyStrLe
      (((bucketFor fs T base tagFilter cat).take m).map ImageRecord.filename) := by
  rw [List.map_take, bucketFor_filenames]
  exact List.Pairwise.sublist
    ((List.take_sublist _ _).trans (List.filter_sublist _))
    (image_files_in_pairwise fs cat)

/-- C2 counterexample: with the explicit category filter `["b", "a"]` and
limit 1, the handler processes category `b` first and returns only `b`'s
record, even though category `a` precedes `b` lexicographically and has a
matching image — so categories are not processed in ascending order in
the all-categories shape with an explicit filter. -/
theorem C2_counterexample :
    list_all_images fsB TagsFile.absent "h" ["b", "a"] [] (some "1") =
      Except.ok [("b", [mkRecord "h" "b" "y.jpg" []])] ∧
    categories fsB = ["a", "b"] ∧
    image_files_in fsB "a" = ["x.jpg"] ∧
    acceptTag (lowerTags []) (tagsFor [] "a" "x.jpg") = true :=
  ⟨rfl, rfl, rfl, rfl⟩

/-- C2 amended: files within every bucket, the single-category items and
the search results are in ascending filename order, and search results
are grouped by ascending category; the emitted categories of `/images`
follow the handler's iteration list — the discovered (sorted) categories
when no explicit filter is given, but the filter's own encounter order
when one is — so they are sorted only in the unfiltered case. -/
theorem C2_ordering_amended (fs : FS) (tf : TagsFile) (hostUrl category : String)
    (catValues tagValues : List String) (limitRaw : Option String)
    (data : List (String × List ImageRecord)) (items results : List ImageRecord)
    (hroot : fs.rootListing.Nodup)
    (hnd : (chosenCats fs catValues).Nodup) :
    (list_all_images fs tf hostUrl catValues tagValues limitRaw = Except.ok data →
      (parse_multi_param catValues = [] →
        List.Pairwise pyStrLe (data.map Prod.fst)) ∧
      (data.map Prod.fst).Sublist (chosenCats fs catValues) ∧
      (∀ cb ∈ data, List.Pairwise pyStrLe (cb.2.map ImageRecord.filename))) ∧
    (list_images_by_category fs tf hostUrl category tagValues limitRaw =
        Except.ok items →
      List.Pairwise pyStrLe (items.map ImageRecord.filename)) ∧
    (search_by_tag fs tf hostUrl tagValues limitRaw = Except.ok results →
      List.Pairwise recOrd results) := by
  refine ⟨?_, ?_, ?_⟩
  · intro hok
    obtain ⟨T, hT, hcase⟩ := list_all_images_ok_inv hnd hok
    have hsub : (data.map Prod.fst).Sublist (chosenCats fs catValues) := by
      rcases hcase with ⟨_, hdata⟩ | ⟨L, _, hL, hdata⟩
      · rw [hdata]
        exact allFull_keys_sub fs T (base_url hostUrl) (lowerTags tagValues) _
      · rw [hdata]
        exact ((truncAll_TruncOf fs T (base_url hostUrl) (lowerTags tagValues) _ L
          hL).keys_sub).trans
          (allFull_keys_sub fs T (base_url hostUrl) (lowerTags tagValues) _)
    refine ⟨?_, hsub, ?_⟩
    · intro hpm
      have hchosen : chosenCats fs catValues = categories fs := by
        simp [chosenCats, hpm]
      rw [hchosen] at hsub
      exact List.Pairwise.sublist hsub (categories_pairwise fs)
    · intro cb hcb
      rcases cb with ⟨c, b⟩
      have htake : ∃ m,
          b = (bucketFor fs T (base_url hostUrl) (lowerTags tagValues) c).take m := by
        rcases hcase with ⟨_, hdata⟩ | ⟨L, _, hL, hdata⟩
        · rw [hdata] at hcb
          rcases mem_allFull.mp hcb with ⟨_, hb, _⟩
          exact ⟨(bucketFor fs T (base_url hostUrl) (lowerTags tagValues) c).length,
            by rw [hb, List.take_length]⟩
        · rw [hdata] at hcb
          rcases (truncAll_TruncOf fs T (base_url hostUrl) (lowerTags tagValues) _ L
              hL).mem_take hcb with ⟨A, m, hmemA, hbA⟩
          rcases mem_allFull.mp hmemA with ⟨_, hA, _⟩
          exact ⟨m, by rw [hbA, hA]⟩
      rcases htake with ⟨m, hm⟩
      dsimp only
      rw [hm]
      exact bucket_take_filenames_pairwise fs T (base_url hostUrl)
        (lowerTags tagValues) c m
  · intro hok
    obtain ⟨T, _, _, _, hitems⟩ := list_images_by_category_ok_inv hok
    cases hp : parseLimitArg limitRaw with
    | none =>
      rw [hitems, hp]
      simp only [limTake]
      rw [← List.take_length (bucketFor fs T (base_url hostUrl)
        (lowerTags tagValues) category)]
      exact bucket_take_filenames_pairwise fs T (base_url hostUrl)
        (lowerTags tagValues) category _
    | some L =>
      rw [hitems, hp]
      simp only [limTake]
      exact bucket_take_filenames_pairwise fs T (base_url hostUrl)
        (lowerTags tagValues) category L.toNat
  · intro hok
    obtain ⟨T, _, _, _, hres⟩ := search_by_tag_ok_inv hok
    have hflat : List.Pairwise recOrd
        (((categories fs).map
          (searchBucketFor fs T (base_url hostUrl) (lowerTags tagValues))).flatten) := by
      rw [List.pairwise_flatten]
      constructor
      · intro bl hbl
        rcases List.mem_map.mp hbl with ⟨c, _, rfl⟩
        have h1 : List.Pairwise pyStrLe
            ((searchBucketFor fs T (base_url hostUrl) (lowerTags tagValues) c).map
              ImageRecord.filename) := by
          rw [searchBucketFor_filenames]
          exact List.Pairwise.sublist (List.filter_sublist _)
            (image_files_in_pairwise fs c)
        have hfn := List.pairwise_map.mp h1
        refine hfn.imp_of_mem ?_
        intro r1 r2 h1m h2m hle
        refine ⟨?_, fun _ => hle⟩
        rw [searchBucketFor_category h1m, searchBucketFor_category h2m]
        exact pyStrLe_refl c
      · rw [List.pairwise_map]
        have hcats : List.Pairwise (fun c1 c2 => pyStrLe c1 c2 ∧ c1 ≠ c2)
            (categories fs) :=
          (categories_pairwise fs).and (categories_nodup fs hroot)
        refine hcats.imp ?_
        rintro c1 c2 ⟨hle, hne⟩ x hx y hy
        refine ⟨?_, ?_⟩
        · rw [searchBucketFor_category hx, searchBucketFor_category hy]
          exact hle
        · intro heq
          exfalso
          apply hne
          rw [← searchBucketFor_category hx, ← searchBucketFor_category hy]
          exact heq
    cases hp : parseLimitArg limitRaw with
    | none =>
      rw [hres, hp]
      exact hflat
    | some L =>
      rw [hres, hp]
      simp only [limTake]
      exact List.Pairwise.sublist (List.take_sublist _ _) hflat

theorem C2_witness :
    List.Pairwise pyStrLe
      (([("a", [mkRecord "h" "a" "x.jpg" []]),
        ("b", [mkRecord "h" "b" "y.jpg" []])].map Prod.fst)) :=
  ((C2_ordering_amended fsB TagsFile.absent "h" "a" [] [] none
      [("a", [mkRecord "h" "a" "x.jpg" []]), ("b", [mkRecord "h" "b" "y.jpg" []])] [] []
      (by decide) (by decide)).1 rfl).1 (by decide)

theorem list_all_images_limit_congr (fs : FS) (tf : TagsFile) (hostUrl : String)
    (catValues tagValues : List String) {raw1 raw2 : Option String}
    (h : parseLimitArg raw1 = parseLimitArg raw2) :
    list_all_images fs tf hostUrl catValues tagValues raw1 =
      list_all_images fs tf hostUrl catValues tagValues raw2 := by
  unfold list_all_images
  cases hload : load_tags tf with
  | error e => rfl
  | ok T =>
    dsimp only
    rw [h]

theorem list_images_by_category_limit_congr (fs : FS) (tf : TagsFile)
    (hostUrl category : String) (tagValues : List String) {raw1 raw2 : Option String}
    (h : parseLimitArg raw1 = parseLimitArg raw2) :
    list_images_by_category fs tf hostUrl category tagValues raw1 =
      list_images_by_category fs tf hostUrl category tagValues raw2 := by
  unfold list_images_by_category
  cases hload : load_tags tf with
  | error e => rfl
  | ok T =>
    dsimp only
    rw [h]

theorem search_by_tag_limit_congr (fs : FS) (tf : TagsFile) (hostUrl : String)
    (tagValues : List String) {raw1 raw2 : Option String}
    (h : parseLimitArg raw1 = parseLimitArg raw2) :
    search_by_tag fs tf hostUrl tagValues raw1 =
      search_by_tag fs tf hostUrl tagValues raw2 := by
  unfold search_by_tag
  cases hload : load_tags tf with
  | error e => rfl
  | ok T =>
    dsimp only
    rw [h]

/-- C3 counterexample: a present `limit` value that does not parse as an
integer (`"oops"`) is silently treated as absent — the request succeeds
unbounded — rather than being reported as an invalid argument. -/
theorem C3_counterexample :
    parseLimitArg (some "oops") = none ∧
    list_all_images fsB TagsFile.absent "h" [] [] (some "oops") =
      list_all_images fsB TagsFile.absent "h" [] [] none ∧
    list_all_images fsB TagsFile.absent "h" [] [] (some "oops") =
      Except.ok [("a", [mkRecord "h" "a" "x.jpg" []]),
        ("b", [mkRecord "h" "b" "y.jpg" []])] :=
  ⟨rfl, rfl, rfl⟩

/-- C3 amended: an absent limit yields an unbounded query; a present
limit that fails integer parsing is treated exactly like an absent one
(Werkzeug returns the default on conversion failure) — not an error; a
limit that parses to an integer less than 1 is reported as
invalid-argument in all three shapes (once the checks preceding limit
validation pass), never silently ignored or clamped. -/
theorem C3_limit_parsing (fs : FS) (tf : TagsFile) (hostUrl category : String)
    (catValues tagValues : List String) (raw : String) (T : TagIndex) (L : Int)
    (hT : load_tags tf = Except.ok T) :
    parseLimitArg none = none ∧
    (parsePyInt raw = none →
      list_all_images fs tf hostUrl catValues tagValues (some raw) =
        list_all_images fs tf hostUrl catValues tagValues none ∧
      list_images_by_category fs tf hostUrl category tagValues (some raw) =
        list_images_by_category fs tf hostUrl category tagValues none ∧
      search_by_tag fs tf hostUrl tagValues (some raw) =
        search_by_tag fs tf hostUrl tagValues none) ∧
    (parseLimitArg (some raw) = some L → L < 1 →
      list_all_images fs tf hostUrl catValues tagValues (some raw) =
        Except.error (ApiErr.badRequest "limit must be >= 1") ∧
      (image_files_in fs category ≠ [] →
        list_images_by_category fs tf hostUrl category tagValues (some raw) =
          Except.error (ApiErr.badRequest "limit must be >= 1")) ∧
      (lowerTags tagValues ≠ [] →
        search_by_tag fs tf hostUrl tagValues (some raw) =
          Except.error (ApiErr.badRequest "limit must be >= 1"))) := by
  refine ⟨rfl, ?_, ?_⟩
  · intro hraw
    have h : parseLimitArg (some raw) = parseLimitArg none := hraw
    exact ⟨list_all_images_limit_congr fs tf hostUrl catValues tagValues h,
      list_images_by_category_limit_congr fs tf hostUrl category tagValues h,
      search_by_tag_limit_congr fs tf hostUrl tagValues h⟩
  · intro hp hl
    have hbad : limitBad (parseLimitArg (some raw)) = true := by
      rw [hp]
      simp [limitBad]
      omega
    exact ⟨list_all_images_badLimit fs tf hostUrl catValues tagValues (some raw) T hT hbad,
      fun hne => list_images_by_category_badLimit fs tf hostUrl category tagValues
        (some raw) T hT hne hbad,
      fun htag => search_by_tag_badLimit fs tf hostUrl tagValues (some raw) T hT htag hbad⟩

theorem C3_witness :
    list_all_images fsB TagsFile.absent "h" [] [] (some "4.2") =
      list_all_images fsB TagsFile.absent "h" [] [] none ∧
    list_all_images fsB TagsFile.absent "h" [] [] (some "0") =
      Except.error (ApiErr.badRequest "limit must be >= 1") := by
  refine ⟨((C3_limit_parsing fsB TagsFile.absent "h" "a" [] [] "4.2" [] 0
    rfl).2.1 (by decide)).1, ?_⟩
  exact ((C3_limit_parsing fsB TagsFile.absent "h" "a" [] [] "0" [] 0
    rfl).2.2 (by decide) (by decide)).1

/-- C4: in every query shape with a non-empty tag filter, an image is
kept if and only if at least one of its own tags equals at least one
requested token under case-insensitive (lowercased) comparison — an OR
across filter tokens; in particular an image tagged `["a","b"]` matches
the filter `"b,c"`, and `"Hypar"` matches a stored `"hypar"` and vice
versa. -/
theorem C4_tag_filter_or_semantics (fs : FS) (tf : TagsFile)
    (hostUrl category : String) (catValues tagValues : List String) (T : TagIndex)
    (data : List (String × List ImageRecord)) (items results : List ImageRecord)
    (hT : load_tags tf = Except.ok T)
    (htag : lowerTags tagValues ≠ [])
    (hnd : (chosenCats fs catValues).Nodup) :
    (∀ tags, acceptTag (lowerTags tagValues) tags = true ↔
      ∃ tg ∈ tags, ∃ q ∈ parse_multi_param tagValues, pyLower tg = pyLower q) ∧
    (list_images_by_category fs tf hostUrl category tagValues none = Except.ok items →
      ∀ f, (∃ r ∈ items, r.filename = f) ↔
        f ∈ image_files_in fs category ∧
          matchAny (lowerTags tagValues) (tagsFor T category f) = true) ∧
    (search_by_tag fs tf hostUrl tagValues none = Except.ok results →
      ∀ c f, (∃ r ∈ results, r.category = c ∧ r.filename = f) ↔
        c ∈ categories fs ∧ f ∈ image_files_in fs c ∧
          matchAny (lowerTags tagValues) (tagsFor T c f) = true) ∧
    (list_all_images fs tf hostUrl catValues tagValues none = Except.ok data →
      ∀ c f, (∃ b, (c, b) ∈ data ∧ ∃ r ∈ b, r.filename = f) ↔
        c ∈ chosenCats fs catValues ∧ f ∈ image_files_in fs c ∧
          matchAny (lowerTags tagValues) (tagsFor T c f) = true) ∧
    matchAny (lowerTags ["b,c"]) ["a", "b"] = true ∧
    matchAny (lowerTags ["Hypar"]) ["hypar"] = true ∧
    matchAny (lowerTags ["hypar"]) ["Hypar"] = true := by
  refine ⟨?_, ?_, ?_, ?_, by decide, by decide, by decide⟩
  · intro tags
    rw [acceptTag_of_ne htag]
    exact matchAny_iff
  · intro hok f
    obtain ⟨T', hT', _, _, hitems⟩ := list_images_by_category_ok_inv hok
    rw [hT] at hT'
    have hTT : T = T' := Except.ok.inj hT'
    subst hTT
    have hitems' : items =
        bucketFor fs T (base_url hostUrl) (lowerTags tagValues) category := by
      rw [hitems]
      rfl
    constructor
    · rintro ⟨r, hr, hrf⟩
      rw [hitems'] at hr
      obtain ⟨g, ⟨hgf, hgacc⟩, rfl⟩ := mem_pendingRecords_full hr
      have hgeq : g = f := hrf
      subst hgeq
      rw [acceptTag_of_ne htag] at hgacc
      exact ⟨hgf, hgacc⟩
    · rintro ⟨hf, hm⟩
      refine ⟨mkRecord (base_url hostUrl) category f (tagsFor T category f), ?_, rfl⟩
      rw [hitems']
      exact mem_bucketFor.mpr ⟨hf, by rw [acceptTag_of_ne htag]; exact hm⟩
  · intro hok c f
    obtain ⟨T', hT', _, _, hres⟩ := search_by_tag_ok_inv hok
    rw [hT] at hT'
    have hTT : T = T' := Except.ok.inj hT'
    subst hTT
    have hres' : results = ((categories fs).map
        (searchBucketFor fs T (base_url hostUrl) (lowerTags tagValues))).flatten := by
      rw [hres]
      rfl
    constructor
    · rintro ⟨r, hr, hrc, hrf⟩
      rw [hres'] at hr
      rcases List.mem_flatten.mp hr with ⟨bl, hbl, hrbl⟩
      rcases List.mem_map.mp hbl with ⟨c0, hc0, rfl⟩
      obtain ⟨g, ⟨hgf, hgm⟩, rfl⟩ := mem_searchPending_full hrbl
      have hc : c0 = c := hrc
      have hg : g = f := hrf
      subst hc
      subst hg
      exact ⟨hc0, hgf, hgm⟩
    · rintro ⟨hc, hf, hm⟩
      refine ⟨mkRecord (base_url hostUrl) c f (tagsFor T c f), ?_, rfl, rfl⟩
      rw [hres']
      exact List.mem_flatten.mpr
        ⟨searchBucketFor fs T (base_url hostUrl) (lowerTags tagValues) c,
          List.mem_map.mpr ⟨c, hc, rfl⟩, mem_searchBucketFor.mpr ⟨hf, hm⟩⟩
  · intro hok c f
    obtain ⟨T', hT', hcase⟩ := list_all_images_ok_inv hnd hok
    rw [hT] at hT'
    have hTT : T = T' := Except.ok.inj hT'
    subst hTT
    rcases hcase with ⟨_, hdata⟩ | ⟨L, hpL, _, _⟩
    · constructor
      · rintro ⟨b, hb, r, hr, hrf⟩
        rw [hdata] at hb
        rcases mem_allFull.mp hb with ⟨hcmem, hbeq, _⟩
        rw [hbeq] at hr
        obtain ⟨g, ⟨hgf, hgacc⟩, rfl⟩ := mem_pendingRecords_full hr
        have hgeq : g = f := hrf
        subst hgeq
        rw [acceptTag_of_ne htag] at hgacc
        exact ⟨hcmem, hgf, hgacc⟩
      · rintro ⟨hc, hf, hm⟩
        have hrmem : mkRecord (base_url hostUrl) c f (tagsFor T c f) ∈
            bucketFor fs T (base_url hostUrl) (lowerTags tagValues) c :=
          mem_bucketFor.mpr ⟨hf, by rw [acceptTag_of_ne htag]; exact hm⟩
        refine ⟨bucketFor fs T (base_url hostUrl) (lowerTags tagValues) c, ?_,
          mkRecord (base_url hostUrl) c f (tagsFor T c f), hrmem, rfl⟩
        rw [hdata]
        exact mem_allFull.mpr ⟨hc, rfl, List.ne_nil_of_mem hrmem⟩
    · exact absurd hpL (by simp [parseLimitArg])

theorem C4_witness :
    matchAny (lowerTags ["b,c"]) ["a", "b"] = true ∧
    matchAny (lowerTags ["Hypar"]) ["hypar"] = true ∧
    matchAny (lowerTags ["hypar"]) ["Hypar"] = true := by
  obtain ⟨-, -, -, -, h1, h2, h3⟩ := C4_tag_filter_or_semantics fsA tfA "http://h"
    "components" [] ["Hypar"] TA [] [] [] rfl (by decide) (by decide)
  exact ⟨h1, h2, h3⟩

/-- C9: in every query shape, every returned record's filename is one of
the regular files listed directly in that record's category directory,
and its lowercased name ends with one of the recognized image extensions
`{jpg, jpeg, png, webp, gif}`; nothing outside the allow-list is ever
returned. -/
theorem C9_extension_allowlist (fs : FS) (tf : TagsFile) (hostUrl category : String)
    (catValues tagValues : List String) (limitRaw : Option String)
    (data : List (String × List ImageRecord)) (items results : List ImageRecord) :
    (list_all_images fs tf hostUrl catValues tagValues limitRaw = Except.ok data →
      ∀ cb ∈ data, ∀ r ∈ cb.2, r.category = cb.1 ∧
        r.filename ∈ fs.listingAt cb.1 ∧ fs.isFileAt cb.1 r.filename = true ∧
        hasImageExt r.filename = true) ∧
    (list_images_by_category fs tf hostUrl category tagValues limitRaw =
        Except.ok items →
      ∀ r ∈ items, r.category = category ∧ r.filename ∈ fs.listingAt category ∧
        fs.isFileAt category r.filename = true ∧ hasImageExt r.filename = true) ∧
    (search_by_tag fs tf hostUrl tagValues limitRaw = Except.ok results →
      ∀ r ∈ results, r.filename ∈ fs.listingAt r.category ∧
        fs.isFileAt r.category r.filename = true ∧
        hasImageExt r.filename = true) := by
  refine ⟨?_, ?_, ?_⟩
  · intro hok cb hcb r hr
    rcases list_all_images_records hok with ⟨T, _, horigin⟩
    rcases horigin cb hcb r hr with ⟨f, hf, rfl⟩
    rcases mem_image_files_in.mp hf with ⟨_, hlist, hisf, hext⟩
    exact ⟨rfl, hlist, hisf, hext⟩
  · intro hok r hr
    obtain ⟨T, _, _, _, hitems⟩ := list_images_by_category_ok_inv hok
    rw [hitems] at hr
    obtain ⟨f, hf, rfl⟩ := mem_pendingRecords (mem_limTake hr)
    rcases mem_image_files_in.mp hf with ⟨_, hlist, hisf, hext⟩
    exact ⟨rfl, hlist, hisf, hext⟩
  · intro hok r hr
    obtain ⟨T, _, _, _, hres⟩ := search_by_tag_ok_inv hok
    rw [hres] at hr
    rcases List.mem_flatten.mp (mem_limTake hr) with ⟨bl, hbl, hrbl⟩
    rcases List.mem_map.mp hbl with ⟨c0, _, rfl⟩
    obtain ⟨f, hf, rfl⟩ := mem_searchPending hrbl
    rcases mem_image_files_in.mp hf with ⟨_, hlist, hisf, hext⟩
    exact ⟨hlist, hisf, hext⟩

theorem C9_witness :
    (mkRecord (base_url "http://h") "components" "a.png" ["Hypar"]).category =
      "components" ∧
    (mkRecord (base_url "http://h") "components" "a.png" ["Hypar"]).filename ∈
      fsA.listingAt "components" ∧
    fsA.isFileAt "components"
      (mkRecord (base_url "http://h") "components" "a.png" ["Hypar"]).filename = true ∧
    hasImageExt
      (mkRecord (base_url "http://h") "components" "a.png" ["Hypar"]).filename = true :=
  (C9_extension_allowlist fsA tfA "http://h" "components" [] [] none []
    [mkRecord (base_url "http://h") "components" "a.png" ["Hypar"],
     mkRecord (base_url "http://h") "components" "b.jpg" ["joint"]] []).2.1 rfl
    (mkRecord (base_url "http://h") "components" "a.png" ["Hypar"])
    (List.mem_cons_self _ _)
